import Mathlib

/-!
Verification of the kubetail per-node container-log agent core against its
natural-language specification.

Each section shallowly embeds one component of the Rust source
(`crates/rgkl/src/util/{reader,writer,offset}.rs`,
`crates/cluster_agent/src/{authorizer,stream_util,log_metadata}.rs`,
`crates/cluster_agent/src/log_metadata/log_metadata_watcher.rs`) as
executable Lean definitions, and proves or refutes the specification
claims about them.  Machine integers are modelled as `Nat`/`Int`
(values stay far below any overflow boundary on the considered inputs),
bytes as `Nat`, fallible operations as `Option`/`Except`, and loops as
fuel-indexed structural recursions whose fuel is proven (or chosen)
sufficient, so that every definition evaluates by `decide`.
-/

namespace Kubetail

/-! ## Event deduplication
(`crates/cluster_agent/src/log_metadata/log_metadata_watcher.rs`,
`deduplicate_metadata_events`.)

`deduplicate_metadata_events` walks the translated batch in reverse order,
keeps every `Err`, keeps each `Ok(event)` only the first time the event
value is seen (tracked in a `HashSet`), and pushes kept items to the front
of a deque, restoring forward order.  `E` stands for `WatcherError` and
`Ev` for `LogMetadataWatchEvent` (whose equality is full structural
equality of `(type, spec, fileInfo)`).
-/

/-- The reverse walk of `deduplicate_metadata_events`: `seen` is the
`HashSet` of already-kept `Ok` payloads, `acc` the deque built by
`push_front`. -/
def dedupGo {E Ev : Type} [DecidableEq Ev] :
    List (Except E Ev) → List Ev → List (Except E Ev) → List (Except E Ev)
  | [], _, acc => acc
  | x :: rest, seen, acc =>
    match x with
    | .error e => dedupGo rest seen (.error e :: acc)
    | .ok ev =>
      if ev ∈ seen then dedupGo rest seen acc
      else dedupGo rest (ev :: seen) (.ok ev :: acc)

/-- `deduplicate_metadata_events` from the watcher source. -/
def deduplicate_metadata_events {E Ev : Type} [DecidableEq Ev]
    (metadata_events : List (Except E Ev)) : List (Except E Ev) :=
  dedupGo metadata_events.reverse [] []

/-- The `Ok` payloads of a batch, in order. -/
def oks {E Ev : Type} (l : List (Except E Ev)) : List Ev :=
  l.filterMap fun x => match x with | .ok ev => some ev | .error _ => none

/-- The `Err` payloads of a batch, in order. -/
def errs {E Ev : Type} (l : List (Except E Ev)) : List E :=
  l.filterMap fun x => match x with | .ok _ => none | .error e => some e

theorem oks_cons_ok {E Ev : Type} (ev : Ev) (l : List (Except E Ev)) :
    oks (.ok ev :: l) = ev :: oks l := rfl

theorem oks_cons_err {E Ev : Type} (e : E) (l : List (Except E Ev)) :
    oks (.error e :: l) = oks l := rfl

theorem errs_cons_ok {E Ev : Type} (ev : Ev) (l : List (Except E Ev)) :
    errs (.ok ev :: l) = errs l := rfl

theorem errs_cons_err {E Ev : Type} (e : E) (l : List (Except E Ev)) :
    errs (.error e :: l) = e :: errs l := rfl

theorem oks_reverse {E Ev : Type} (l : List (Except E Ev)) :
    oks l.reverse = (oks l).reverse := by
  simp [oks, List.filterMap_reverse]

/-- Specification-side description of the deduplication: keep an `Ok`
element exactly when the same event value does not occur again later in
the batch (so the latest occurrence survives, in place), and keep every
`Err`. -/
def keepLatest {E Ev : Type} [DecidableEq Ev] :
    List (Except E Ev) → List (Except E Ev)
  | [] => []
  | .error e :: rest => .error e :: keepLatest rest
  | .ok ev :: rest =>
    if ev ∈ oks rest then keepLatest rest else .ok ev :: keepLatest rest

/-- Membership in the seen-set accumulated by a reverse walk. -/
def seenAfter {E Ev : Type} [DecidableEq Ev] :
    List (Except E Ev) → List Ev → List Ev
  | [], seen => seen
  | .error _ :: rest, seen => seenAfter rest seen
  | .ok ev :: rest, seen =>
    seenAfter rest (if ev ∈ seen then seen else ev :: seen)

/-- Reverse-order first-seen filter (the kept sublist of the reverse
walk, still in reverse order). -/
def revKeep {E Ev : Type} [DecidableEq Ev] :
    List (Except E Ev) → List Ev → List (Except E Ev)
  | [], _ => []
  | .error e :: rest, seen => .error e :: revKeep rest seen
  | .ok ev :: rest, seen =>
    if ev ∈ seen then revKeep rest seen
    else .ok ev :: revKeep rest (ev :: seen)

theorem dedupGo_eq_revKeep {E Ev : Type} [DecidableEq Ev]
    (l : List (Except E Ev)) : ∀ seen acc,
    dedupGo l seen acc = (revKeep l seen).reverse ++ acc := by
  induction l with
  | nil => intro seen acc; simp [dedupGo, revKeep]
  | cons x rest ih =>
    intro seen acc
    cases x with
    | error e => simp [dedupGo, revKeep, ih]
    | ok ev =>
      by_cases h : ev ∈ seen <;> simp [dedupGo, revKeep, h, ih]

theorem mem_seenAfter {E Ev : Type} [DecidableEq Ev]
    (l : List (Except E Ev)) : ∀ seen ev,
    ev ∈ seenAfter l seen ↔ ev ∈ seen ∨ ev ∈ oks l := by
  induction l with
  | nil => intro seen ev; simp [seenAfter, oks]
  | cons x rest ih =>
    intro seen ev
    cases x with
    | error e => simp [seenAfter, oks_cons_err, ih]
    | ok ev' =>
      by_cases h : ev' ∈ seen
      · rw [seenAfter, if_pos h, ih, oks_cons_ok]
        constructor
        · rintro (hs | ho)
          · exact Or.inl hs
          · exact Or.inr (List.mem_cons.mpr (Or.inr ho))
        · rintro (hs | ho)
          · exact Or.inl hs
          · rcases List.mem_cons.mp ho with he | ho'
            · exact Or.inl (he ▸ h)
            · exact Or.inr ho'
      · rw [seenAfter, if_neg h, ih, oks_cons_ok]
        constructor
        · rintro (hs | ho)
          · rcases List.mem_cons.mp hs with he | hs'
            · exact Or.inr (List.mem_cons.mpr (Or.inl he))
            · exact Or.inl hs'
          · exact Or.inr (List.mem_cons.mpr (Or.inr ho))
        · rintro (hs | ho)
          · exact Or.inl (List.mem_cons.mpr (Or.inr hs))
          · rcases List.mem_cons.mp ho with he | ho'
            · exact Or.inl (List.mem_cons.mpr (Or.inl he))
            · exact Or.inr ho'

theorem revKeep_append_singleton {E Ev : Type} [DecidableEq Ev]
    (l : List (Except E Ev)) : ∀ (x : Except E Ev) seen,
    revKeep (l ++ [x]) seen =
      revKeep l seen ++ revKeep [x] (seenAfter l seen) := by
  induction l with
  | nil => intro x seen; simp [revKeep, seenAfter]
  | cons y rest ih =>
    intro x seen
    cases y with
    | error e => simp [revKeep, seenAfter, ih]
    | ok ev =>
      by_cases h : ev ∈ seen <;>
        simp [revKeep, seenAfter, h, ih]

theorem dedup_eq_keepLatest {E Ev : Type} [DecidableEq Ev]
    (l : List (Except E Ev)) :
    deduplicate_metadata_events l = keepLatest l := by
  induction l with
  | nil => simp [deduplicate_metadata_events, dedupGo, keepLatest]
  | cons x rest ih =>
    have hrev : (x :: rest).reverse = rest.reverse ++ [x] := by simp
    unfold deduplicate_metadata_events at *
    rw [hrev, dedupGo_eq_revKeep, revKeep_append_singleton]
    rw [dedupGo_eq_revKeep] at ih
    simp only [List.append_nil] at ih
    cases x with
    | error e =>
      simp only [keepLatest]
      rw [← ih]
      simp [revKeep]
    | ok ev =>
      have hseen : ev ∈ seenAfter rest.reverse ([] : List Ev) ↔ ev ∈ oks rest := by
        rw [mem_seenAfter]
        simp [oks, List.filterMap_reverse]
      by_cases h : ev ∈ oks rest
      · simp only [keepLatest, if_pos h]
        rw [← ih]
        simp [revKeep, hseen.mpr h]
      · simp only [keepLatest, if_neg h]
        rw [← ih]
        have : ev ∉ seenAfter rest.reverse ([] : List Ev) := fun hc => h (hseen.mp hc)
        simp [revKeep, this]

theorem keepLatest_sublist {E Ev : Type} [DecidableEq Ev]
    (l : List (Except E Ev)) : (keepLatest l).Sublist l := by
  induction l with
  | nil => simp [keepLatest]
  | cons x rest ih =>
    cases x with
    | error e => exact List.Sublist.cons₂ _ ih
    | ok ev =>
      by_cases h : ev ∈ oks rest
      · rw [keepLatest, if_pos h]
        exact ih.trans (List.sublist_cons_self _ _)
      · rw [keepLatest, if_neg h]
        exact List.Sublist.cons₂ _ ih

theorem oks_keepLatest_subset {E Ev : Type} [DecidableEq Ev]
    (l : List (Except E Ev)) {ev : Ev} (h : ev ∈ oks (keepLatest l)) :
    ev ∈ oks l := by
  induction l with
  | nil => simp [keepLatest, oks] at h
  | cons x rest ih =>
    cases x with
    | error e =>
      rw [keepLatest, oks_cons_err] at h
      rw [oks_cons_err]
      exact ih h
    | ok ev' =>
      by_cases hmem : ev' ∈ oks rest
      · rw [keepLatest, if_pos hmem] at h
        rw [oks_cons_ok]
        exact List.mem_cons.mpr (Or.inr (ih h))
      · rw [keepLatest, if_neg hmem, oks_cons_ok] at h
        rw [oks_cons_ok]
        rcases List.mem_cons.mp h with he | h'
        · exact List.mem_cons.mpr (Or.inl he)
        · exact List.mem_cons.mpr (Or.inr (ih h'))

theorem keepLatest_idem {E Ev : Type} [DecidableEq Ev]
    (l : List (Except E Ev)) : keepLatest (keepLatest l) = keepLatest l := by
  induction l with
  | nil => simp [keepLatest]
  | cons x rest ih =>
    cases x with
    | error e => simp [keepLatest, ih]
    | ok ev =>
      by_cases h : ev ∈ oks rest
      · simp [keepLatest, h, ih]
      · have h2 : ev ∉ oks (keepLatest rest) := fun hc => h (oks_keepLatest_subset rest hc)
        simp [keepLatest, h, h2, ih]

theorem count_oks_keepLatest {E Ev : Type} [DecidableEq Ev]
    (l : List (Except E Ev)) {ev : Ev} (h : ev ∈ oks l) :
    (oks (keepLatest l)).count ev = 1 := by
  induction l with
  | nil => simp [oks] at h
  | cons x rest ih =>
    cases x with
    | error e =>
      rw [oks_cons_err] at h
      rw [keepLatest, oks_cons_err]
      exact ih h
    | ok ev' =>
      by_cases hmem : ev' ∈ oks rest
      · rw [keepLatest, if_pos hmem]
        rw [oks_cons_ok] at h
        rcases List.mem_cons.mp h with he | h'
        · exact ih (he ▸ hmem)
        · exact ih h'
      · rw [keepLatest, if_neg hmem, oks_cons_ok]
        rw [oks_cons_ok] at h
        rcases List.mem_cons.mp h with he | h'
        · subst he
          have hno : ev ∉ oks (keepLatest rest) := fun hc => hmem (oks_keepLatest_subset rest hc)
          simp [List.count_cons, List.count_eq_zero.mpr hno]
        · have hne : ev ≠ ev' := fun hc => hmem (hc ▸ h')
          simp [List.count_cons, hne, ih h']

theorem errs_keepLatest {E Ev : Type} [DecidableEq Ev]
    (l : List (Except E Ev)) : errs (keepLatest l) = errs l := by
  induction l with
  | nil => simp [keepLatest]
  | cons x rest ih =>
    cases x with
    | error e => rw [keepLatest, errs_cons_err, errs_cons_err, ih]
    | ok ev =>
      by_cases h : ev ∈ oks rest
      · rw [keepLatest, if_pos h, errs_cons_ok, ih]
      · rw [keepLatest, if_neg h, errs_cons_ok, errs_cons_ok, ih]

/-- C6: deduplication keeps each distinct `Ok` event exactly once at the
latest occurrence's position, keeps every `Err`, preserves the relative
forward order of retained elements (the result is a sublist of the
input), and is idempotent. -/
theorem dedup_spec {E Ev : Type} [DecidableEq Ev]
    (l : List (Except E Ev)) :
    deduplicate_metadata_events l = keepLatest l ∧
    (deduplicate_metadata_events l).Sublist l ∧
    (∀ ev ∈ oks l, (oks (deduplicate_metadata_events l)).count ev = 1) ∧
    errs (deduplicate_metadata_events l) = errs l ∧
    deduplicate_metadata_events (deduplicate_metadata_events l) =
      deduplicate_metadata_events l := by
  have hk := dedup_eq_keepLatest l
  refine ⟨hk, ?_, ?_, ?_, ?_⟩
  · rw [hk]; exact keepLatest_sublist l
  · intro ev hev; rw [hk]; exact count_oks_keepLatest l hev
  · rw [hk]; exact errs_keepLatest l
  · rw [hk, dedup_eq_keepLatest, keepLatest_idem]

/-- C6 witness: the deduplication properties at a concrete batch with a
duplicated `Ok`, an interleaved `Err`, and a distinct `Ok`. -/
theorem dedup_spec_witness :
    deduplicate_metadata_events
        ([.ok 1, .error "e", .ok 2, .ok 1] : List (Except String Nat)) =
      [.error "e", .ok 2, .ok 1] ∧
    (oks (deduplicate_metadata_events
        ([.ok 1, .error "e", .ok 2, .ok 1] : List (Except String Nat)))).count 1 = 1 := by
  have h := dedup_spec ([.ok 1, .error "e", .ok 2, .ok 1] : List (Except String Nat))
  refine ⟨?_, h.2.2.1 1 (by decide)⟩
  rw [h.1]
  rfl

/-! ## Shutdown stream wrapping
(`crates/cluster_agent/src/stream_util.rs`, `wrap_with_shutdown`.)

The task loops over a biased `select!`: if the shutdown broadcast fires
it sends one `Err(UNAVAILABLE, "server shutting down")` and breaks;
otherwise it forwards the next inner item (`Ok` forwarded and loop
continues, `Err` forwarded and loop breaks, inner end breaks).  We model
the inner channel as the list of results it will yield and the shutdown
broadcast by the number of select rounds that run before the signal is
observed (`none` = never observed). -/

/-- gRPC status codes used by the core. -/
inductive GrpcCode : Type
  | ok
  | unauthenticated
  | permissionDenied
  | notFound
  | unavailable
  | unknown
  | aborted
deriving DecidableEq, Repr

/-- A `tonic::Status`: code plus message. -/
structure GrpcStatus : Type where
  code : GrpcCode
  message : String
deriving DecidableEq, Repr

/-- The terminal status sent by `wrap_with_shutdown` on shutdown. -/
def shutdownStatus : GrpcStatus :=
  ⟨GrpcCode.unavailable, "server shutting down"⟩

/-- `wrap_with_shutdown`'s forwarding loop.  `shutdownAt = some k` means
the shutdown branch of the biased select becomes ready at the `k`-th
select round (counting consumed inner items); `none` means it never
fires. -/
def wrap_with_shutdown {T : Type} :
    List (Except GrpcStatus T) → Option Nat → List (Except GrpcStatus T)
  | _, some 0 => [.error shutdownStatus]
  | [], _ => []
  | .ok a :: rest, sd => .ok a :: wrap_with_shutdown rest (sd.map (· - 1))
  | .error e :: _, _ => [.error e]

/-- Specification-side behaviour with no shutdown: forward `Ok`s in
order; forward the first `Err` and stop; complete normally at inner
end. -/
def forwardUntilErr {T : Type} :
    List (Except GrpcStatus T) → List (Except GrpcStatus T)
  | [] => []
  | .ok a :: rest => .ok a :: forwardUntilErr rest
  | .error e :: _ => [.error e]

/-- C8: without shutdown the wrapper forwards `Ok` items in order until
the inner stream ends (completing normally) or an `Err` is forwarded (and
the stream then terminates); when the shutdown signal is observed after
`k` forwarded `Ok`s, the output is those items followed by exactly one
`Err(UNAVAILABLE, "server shutting down")` — shutdown is never a silent
end of stream. -/
theorem wrap_with_shutdown_spec {T : Type} (inner : List (Except GrpcStatus T)) :
    shutdownStatus.code = GrpcCode.unavailable ∧
    shutdownStatus.message = "server shutting down" ∧
    wrap_with_shutdown inner none = forwardUntilErr inner ∧
    (∀ k, k ≤ inner.length → (∀ x ∈ inner.take k, ∃ a, x = .ok a) →
      wrap_with_shutdown inner (some k) =
        inner.take k ++ [.error shutdownStatus]) := by
  refine ⟨rfl, rfl, ?_, ?_⟩
  · induction inner with
    | nil => rfl
    | cons x rest ih =>
      cases x with
      | ok a => simpa [wrap_with_shutdown, forwardUntilErr] using ih
      | error e => rfl
  · induction inner with
    | nil =>
      intro k hk _
      have hz : k = 0 := by simpa using hk
      subst hz
      rfl
    | cons x rest ih =>
      intro k hk hok
      cases k with
      | zero => cases x <;> rfl
      | succ k' =>
        cases x with
        | ok a =>
          have := ih k' (by simpa using hk)
            (fun y hy => hok y (by simpa using List.mem_cons_of_mem _ hy))
          simpa [wrap_with_shutdown, List.take_succ_cons] using this
        | error e =>
          rcases hok (.error e) (by simp [List.take_succ_cons]) with ⟨a, ha⟩
          exact absurd ha (by simp)

/-- C8 witness: one `Ok` forwarded, then the shutdown error terminates the
stream. -/
theorem wrap_with_shutdown_spec_witness :
    wrap_with_shutdown [Except.ok (7 : Nat)] (some 1) =
      [.ok 7, .error shutdownStatus] := by
  have h := wrap_with_shutdown_spec [Except.ok (7 : Nat)]
  exact h.2.2.2 1 (by decide) (by intro x hx; simp at hx; exact ⟨7, hx⟩)

/-! ## Authorization
(`crates/cluster_agent/src/authorizer.rs`, `Authorizer::is_authorized`.)

For each namespace in the request (or the single empty-string namespace
`vec![String::new()]` when the set is empty), `is_authorized` consults
the `(token_hash, namespace, verb)` cache, otherwise performs a
self-subject-access-review, caches the resulting allow/deny, and on a
deny returns `Status::new(tonic::Code::Unauthenticated,
format!("permission denied: `{verb} pods/log` in namespace
`{namespace}`"))`.  API transport errors are returned as
`tonic::Code::Unknown` and are not cached.  The control plane is
modelled by `api : namespace → verb → Except String Bool` and the moka
cache by an association list (freshly inserted entries consed in
front). -/

/-- The cache key `(token_hash, namespace, verb)`. -/
def AuthCacheKey : Type := String × String × String

instance : DecidableEq AuthCacheKey := by
  unfold AuthCacheKey
  infer_instance

/-- Deny message built in `is_authorized`:
`permission denied: `{verb} pods/log` in namespace `{namespace}``. -/
def deny_message (verb ns : String) : String :=
  "permission denied: `" ++ verb ++ " pods/log` in namespace `" ++ ns ++ "`"

/-- The status returned on a denied access review. -/
def denyStatus (verb ns : String) : GrpcStatus :=
  ⟨GrpcCode.unauthenticated, deny_message verb ns⟩

/-- Cache lookup (`auth_cache.get`). -/
def cacheGet (cache : List (AuthCacheKey × Bool)) (key : AuthCacheKey) :
    Option Bool :=
  (cache.find? fun kv => kv.1 = key).map (·.2)

/-- The per-namespace loop of `is_authorized`, threading cache
insertions. -/
def authLoop (api : String → String → Except String Bool)
    (token_hash verb : String) :
    List (AuthCacheKey × Bool) → List String → Except GrpcStatus Unit
  | _, [] => .ok ()
  | cache, ns :: rest =>
    let cache_key : AuthCacheKey := (token_hash, ns, verb)
    match cacheGet cache cache_key with
    | some allowed =>
      if allowed then authLoop api token_hash verb cache rest
      else .error (denyStatus verb ns)
    | none =>
      match api ns verb with
      | .error e => .error ⟨GrpcCode.unknown, "failed to authenticate " ++ e⟩
      | .ok allowed =>
        let cache' := (cache_key, allowed) :: cache
        if allowed then authLoop api token_hash verb cache' rest
        else .error (denyStatus verb ns)

/-- `Authorizer::is_authorized`: defaults to the single empty namespace
when none is provided, then runs the per-namespace loop. -/
def is_authorized (cache : List (AuthCacheKey × Bool))
    (api : String → String → Except String Bool)
    (token_hash : String) (namespaces : List String) (verb : String) :
    Except GrpcStatus Unit :=
  let eff := if namespaces.isEmpty then [""] else namespaces
  authLoop api token_hash verb cache eff

/-- C2 counterexample: with an empty namespace set and a control plane
that denies, `is_authorized` returns code `UNAUTHENTICATED` — not
`PERMISSION_DENIED` — and its message renders the namespace as the empty
string rather than "all". -/
theorem is_authorized_deny_counterexample :
    is_authorized [] (fun _ _ => .ok false) "tokenhash" [] "list" =
      .error ⟨GrpcCode.unauthenticated,
        "permission denied: `list pods/log` in namespace ``"⟩ ∧
    GrpcCode.unauthenticated ≠ GrpcCode.permissionDenied := by
  exact ⟨rfl, by decide⟩

theorem authLoop_deny (api : String → String → Except String Bool)
    (token_hash verb : String) :
    ∀ (nss : List String) (cache : List (AuthCacheKey × Bool)) (st : GrpcStatus),
    authLoop api token_hash verb cache nss = .error st →
    st.code ≠ GrpcCode.unknown →
    ∃ ns ∈ nss, st = denyStatus verb ns := by
  intro nss
  induction nss with
  | nil => intro cache st h _; simp [authLoop] at h
  | cons ns rest ih =>
    intro cache st h hcode
    rw [authLoop] at h
    rcases hget : cacheGet cache (token_hash, ns, verb) with _ | allowed
    · rw [hget] at h
      rcases hapi : api ns verb with e | allowed
      · rw [hapi] at h
        simp only [Except.error.injEq] at h
        exact absurd (by rw [← h]) hcode
      · rw [hapi] at h
        dsimp only at h
        by_cases hal : allowed
        · simp only [hal, if_true] at h
          rcases ih _ _ h hcode with ⟨ns', hmem, hst⟩
          exact ⟨ns', List.mem_cons_of_mem _ hmem, hst⟩
        · rw [if_neg hal] at h
          simp only [Except.error.injEq] at h
          exact ⟨ns, List.mem_cons_self _ _, h.symm⟩
    · rw [hget] at h
      dsimp only at h
      by_cases hal : allowed
      · simp only [hal, if_true] at h
        rcases ih _ _ h hcode with ⟨ns', hmem, hst⟩
        exact ⟨ns', List.mem_cons_of_mem _ hmem, hst⟩
      · rw [if_neg hal] at h
        simp only [Except.error.injEq] at h
        exact ⟨ns, List.mem_cons_self _ _, h.symm⟩

/-- C2 amended: whenever `is_authorized` fails with a non-`UNKNOWN`
error (i.e. the subject-access-review decision, cached or fresh, was a
deny), the error has gRPC code `UNAUTHENTICATED` (not
`PERMISSION_DENIED`) and its message names the verb and the denied
namespace, the namespace being the empty string — not "all" — when the
request's namespace set is empty. -/
theorem is_authorized_deny_spec (cache : List (AuthCacheKey × Bool))
    (api : String → String → Except String Bool)
    (token_hash : String) (namespaces : List String) (verb : String)
    (st : GrpcStatus)
    (herr : is_authorized cache api token_hash namespaces verb = .error st)
    (hcode : st.code ≠ GrpcCode.unknown) :
    ∃ ns, (ns ∈ namespaces ∨ (namespaces = [] ∧ ns = "")) ∧
      st = ⟨GrpcCode.unauthenticated, deny_message verb ns⟩ := by
  unfold is_authorized at herr
  by_cases hemp : namespaces.isEmpty
  · rw [if_pos hemp] at herr
    rcases authLoop_deny api token_hash verb [""] cache st herr hcode with
      ⟨ns, hmem, hst⟩
    have hns : ns = "" := by simpa using hmem
    exact ⟨ns, Or.inr ⟨List.isEmpty_iff.mp hemp, hns⟩, hst⟩
  · rw [if_neg hemp] at herr
    rcases authLoop_deny api token_hash verb namespaces cache st herr hcode with
      ⟨ns, hmem, hst⟩
    exact ⟨ns, Or.inl hmem, hst⟩

/-- C2 witness: a cached deny for namespace "a" yields the
`UNAUTHENTICATED` deny status naming verb and namespace. -/
theorem is_authorized_deny_spec_witness :
    ∃ ns, (ns ∈ ["a"] ∨ ((["a"] : List String) = [] ∧ ns = "")) ∧
      (⟨GrpcCode.unauthenticated, deny_message "watch" "a"⟩ : GrpcStatus) =
        ⟨GrpcCode.unauthenticated, deny_message "watch" ns⟩ := by
  exact is_authorized_deny_spec [(("h", "a", "watch"), false)]
    (fun _ _ => .ok true) "h" ["a"] "watch"
    ⟨GrpcCode.unauthenticated, deny_message "watch" "a"⟩
    rfl (by decide)

/-! ## Log metadata: filename parsing, service node name, event translation
(`crates/cluster_agent/src/log_metadata.rs` and
`crates/cluster_agent/src/log_metadata/log_metadata_watcher.rs`.)

`LOG_FILE_REGEX` is
`^(?P<pod_name>[^_]+)_(?P<namespace>[^_]+)_(?P<container_name>.+)-(?P<container_id>[^-]+)\.log$`.
Since `[^_]+` cannot cross an underscore, the pod segment is everything
before the first `_` and the namespace everything up to the second `_`;
since `[^-]+` cannot cross a dash and `.log` contains no dash, the only
split the backtracking engine can accept puts `container_id` after the
last `-` of the portion preceding the `.log` suffix.  `.` does not match
a newline, hence the container-name segment must be newline-free; all
four segments must be nonempty.  `parseLogFilename` implements exactly
that match. -/

/-- Split a character list at the first occurrence of `c` (the separator
is dropped). -/
def splitFirst (c : Char) : List Char → Option (List Char × List Char)
  | [] => none
  | x :: t =>
    if x = c then some ([], t)
    else (splitFirst c t).map fun p => (x :: p.1, p.2)

/-- Split a character list at the last occurrence of `c` (the separator
is dropped). -/
def splitLast (c : Char) : List Char → Option (List Char × List Char)
  | [] => none
  | x :: t =>
    match splitLast c t with
    | some (a, b) => some (x :: a, b)
    | none => if x = c then some ([], t) else none

/-- Strip a final `.log`, if present. -/
def stripDotLog (l : List Char) : Option (List Char) :=
  let r := l.reverse
  if r.take 4 = ['g', 'o', 'l', '.'] then some (r.drop 4).reverse else none

/-- The anchored match of `LOG_FILE_REGEX`, returning
`(pod_name, namespace, container_name, container_id)`. -/
def parseLogFilename (filename : String) : Option (String × String × String × String) :=
  match splitFirst '_' filename.toList with
  | none => none
  | some (pod, rest1) =>
    if pod = [] then none
    else
      match splitFirst '_' rest1 with
      | none => none
      | some (ns, rest2) =>
        if ns = [] then none
        else
          match stripDotLog rest2 with
          | none => none
          | some mid =>
            match splitLast '-' mid with
            | none => none
            | some (cname, cid) =>
              if cname = [] ∨ cid = [] ∨ cname.contains '\n' then none
              else some (String.mk pod, String.mk ns, String.mk cname, String.mk cid)

/-- `Path::file_name`: the component after the last `/` (the whole path
when it has no separator). -/
def file_name (p : String) : String :=
  match splitLast '/' p.toList with
  | some (_, b) => String.mk b
  | none => p

/-- `LogMetadataSpec`; the Rust field `namespace` is a Lean keyword and
is called `nspace` here. -/
structure LogMetadataSpec : Type where
  container_id : String
  container_name : String
  pod_name : String
  node_name : String
  nspace : String
deriving DecidableEq, Repr

/-- `LogMetadataFileInfo` (`last_modified_at` as seconds). -/
structure LogMetadataFileInfo : Type where
  size : Int
  last_modified_at : Option Int
deriving DecidableEq, Repr

/-- `LogMetadata` (prost message: optional submessages). -/
structure LogMetadata : Type where
  id : String
  spec : Option LogMetadataSpec
  file_info : Option LogMetadataFileInfo
deriving DecidableEq, Repr

/-- `LogMetadataWatchEvent`. -/
structure LogMetadataWatchEvent : Type where
  type : String
  object : Option LogMetadata
deriving DecidableEq, Repr

/-- `LogMetadataImpl::get_log_metadata_spec`: parse the file name, apply
the namespace filter (empty filter admits everything), and build the
spec carrying the process-wide node name. -/
def get_log_metadata_spec (filepath : String) (namespaces : List String)
    (node_name : String) : Option LogMetadataSpec :=
  match parseLogFilename (file_name filepath) with
  | none => none
  | some (pod_name, ns, container_name, container_id) =>
    if ¬namespaces.isEmpty ∧ ¬namespaces.contains ns then none
    else some ⟨container_id, container_name, pod_name, node_name, ns⟩

/-- `LogMetadataImpl::new` reads `NODE_NAME` with
`env::var("NODE_NAME").unwrap_or_else(|_| "Env variable not set".to_owned())`. -/
def logMetadataImpl_node_name (env : Option String) : String :=
  env.getD "Env variable not set"

/-- The `io::ErrorKind` distinctions the watcher cares about. -/
inductive IoErrorKind : Type
  | notFound
  | other
deriving DecidableEq, Repr

/-- `notify::event::RenameMode`. -/
inductive RenameMode : Type
  | any
  | toSide
  | fromSide
  | both
  | other
deriving DecidableEq, Repr

/-- `notify::event::ModifyKind`. -/
inductive ModifyKind : Type
  | any
  | dataChange
  | metadataChange
  | name (mode : RenameMode)
  | other
deriving DecidableEq, Repr

/-- `notify::EventKind`. -/
inductive EventKind : Type
  | access
  | create
  | modify (kind : ModifyKind)
  | remove
  | other
deriving DecidableEq, Repr

/-- A `notify::Event`: kind plus affected paths. -/
structure NotifyEvent : Type where
  kind : EventKind
  paths : List String
deriving DecidableEq, Repr

/-- `transform_notify_event`: map the notify kind to an event type
(every `Modify`, rename or not, becomes `MODIFIED`), keep only the first
path, parse it, `stat` it (`stat` models `LogMetadataImpl::get_file_info`),
rewrite the type to `DELETED` with a zero `file_info` when the file no
longer exists, and propagate any other I/O error. -/
def transform_notify_event
    (stat : String → Except IoErrorKind LogMetadataFileInfo)
    (event : NotifyEvent) (namespaces : List String) (node_name : String) :
    Option (Except IoErrorKind LogMetadataWatchEvent) :=
  let event_type? : Option String :=
    match event.kind with
    | .modify _ => some "MODIFIED"
    | .create => some "ADDED"
    | .remove => some "DELETED"
    | _ => none
  match event_type? with
  | none => none
  | some event_type =>
    match event.paths.head? with
    | none => none
    | some path =>
      match get_log_metadata_spec path namespaces node_name with
      | none => none
      | some metadata_spec =>
        match stat path with
        | .error io_error =>
          if io_error = .notFound then
            some (.ok ⟨"DELETED",
              some ⟨metadata_spec.container_id, some metadata_spec,
                some ⟨0, none⟩⟩⟩)
          else some (.error io_error)
        | .ok file_info =>
          some (.ok ⟨event_type,
            some ⟨metadata_spec.container_id, some metadata_spec,
              some file_info⟩⟩)

/-- The item-collection loop of `LogMetadataImpl::list`: skip files whose
name does not parse or whose namespace is filtered out, skip files whose
`stat` fails with not-found, abort on other I/O errors. -/
def list_metadata (stat : String → Except IoErrorKind LogMetadataFileInfo)
    (namespaces : List String) (node_name : String) :
    List String → Except IoErrorKind (List LogMetadata)
  | [] => .ok []
  | f :: rest =>
    match get_log_metadata_spec f namespaces node_name with
    | none => list_metadata stat namespaces node_name rest
    | some metadata_spec =>
      match stat f with
      | .error .notFound => list_metadata stat namespaces node_name rest
      | .error e => .error e
      | .ok file_info =>
        (list_metadata stat namespaces node_name rest).map
          fun items =>
            ⟨metadata_spec.container_id, some metadata_spec, some file_info⟩ :: items

theorem get_log_metadata_spec_node_name {filepath : String}
    {namespaces : List String} {node_name : String} {s : LogMetadataSpec}
    (h : get_log_metadata_spec filepath namespaces node_name = some s) :
    s.node_name = node_name := by
  unfold get_log_metadata_spec at h
  rcases hp : parseLogFilename (file_name filepath) with _ | ⟨pod, ns, cn, cid⟩
  · rw [hp] at h; exact absurd h (by simp)
  · rw [hp] at h
    dsimp only at h
    by_cases hf : ¬namespaces.isEmpty ∧ ¬namespaces.contains ns
    · rw [if_pos hf] at h; exact absurd h (by simp)
    · rw [if_neg hf] at h
      simp only [Option.some.injEq] at h
      rw [← h]

/-- C9: when `NODE_NAME` is unset at service construction, the node name
is the literal `"Env variable not set"` (not the empty string), and every
`LogMetadataSpec` carried by `List` items or by translated watch events
bears exactly that string. -/
theorem node_name_env_unset_spec
    (stat : String → Except IoErrorKind LogMetadataFileInfo)
    (files : List String) (namespaces : List String) :
    logMetadataImpl_node_name none = "Env variable not set" ∧
    "Env variable not set" ≠ "" ∧
    (∀ items, list_metadata stat namespaces (logMetadataImpl_node_name none) files
        = .ok items →
      ∀ it ∈ items, ∀ s, it.spec = some s → s.node_name = "Env variable not set") ∧
    (∀ ev res, transform_notify_event stat ev namespaces
        (logMetadataImpl_node_name none) = some (.ok res) →
      ∀ o s, res.object = some o → o.spec = some s →
        s.node_name = "Env variable not set") := by
  refine ⟨rfl, by decide, ?_, ?_⟩
  · induction files with
    | nil =>
      intro items h it hit s hs
      simp only [list_metadata] at h
      simp only [Except.ok.injEq] at h
      rw [← h] at hit
      simp at hit
    | cons f rest ih =>
      intro items h it hit s hs
      rw [list_metadata] at h
      rcases hp : get_log_metadata_spec f namespaces
          (logMetadataImpl_node_name none) with _ | spec
      · rw [hp] at h
        exact ih items h it hit s hs
      · rw [hp] at h
        rcases hst : stat f with e | fi
        · rw [hst] at h
          cases e with
          | notFound => exact ih items h it hit s hs
          | other => exact absurd h (by simp)
        · rw [hst] at h
          dsimp only at h
          rcases hrest : list_metadata stat namespaces
              (logMetadataImpl_node_name none) rest with e | items'
          · rw [hrest] at h; exact absurd h (by simp [Except.map])
          · rw [hrest] at h
            simp only [Except.map, Except.ok.injEq] at h
            rw [← h] at hit
            rcases List.mem_cons.mp hit with he | hmem
            · rw [he] at hs
              simp only [Option.some.injEq] at hs
              rw [← hs]
              exact get_log_metadata_spec_node_name hp
            · exact ih items' hrest it hmem s hs
  · intro ev res h o s ho hspec
    unfold transform_notify_event at h
    rcases het : (match ev.kind with
      | .modify _ => some "MODIFIED"
      | .create => some "ADDED"
      | .remove => some "DELETED"
      | _ => none : Option String) with _ | et
    · rw [het] at h; exact absurd h (by simp)
    · rw [het] at h
      dsimp only at h
      rcases hpath : ev.paths.head? with _ | path
      · rw [hpath] at h; exact absurd h (by simp)
      · rw [hpath] at h
        dsimp only at h
        rcases hp : get_log_metadata_spec path namespaces
            (logMetadataImpl_node_name none) with _ | spec
        · rw [hp] at h; exact absurd h (by simp)
        · rw [hp] at h
          have hnn := get_log_metadata_spec_node_name hp
          rcases hst : stat path with e | fi
          · rw [hst] at h
            dsimp only at h
            by_cases hnf : e = IoErrorKind.notFound
            · rw [if_pos hnf] at h
              simp only [Option.some.injEq, Except.ok.injEq] at h
              rw [← h] at ho
              simp only [Option.some.injEq] at ho
              rw [← ho] at hspec
              simp only [Option.some.injEq] at hspec
              rw [← hspec]
              exact hnn
            · rw [if_neg hnf] at h
              simp at h
          · rw [hst] at h
            dsimp only at h
            simp only [Option.some.injEq, Except.ok.injEq] at h
            rw [← h] at ho
            simp only [Option.some.injEq] at ho
            rw [← ho] at hspec
            simp only [Option.some.injEq] at hspec
            rw [← hspec]
            exact hnn

/-- C9 witness: one matching file listed with `NODE_NAME` unset carries
the literal node name. -/
theorem node_name_env_unset_spec_witness :
    (⟨"id", "c", "pod", "Env variable not set", "ns"⟩ :
        LogMetadataSpec).node_name = "Env variable not set" := by
  have h := node_name_env_unset_spec (fun _ => .ok ⟨4, none⟩)
    ["pod_ns_c-id.log"] []
  exact h.2.2.1
    [⟨"id", some ⟨"id", "c", "pod", "Env variable not set", "ns"⟩, some ⟨4, none⟩⟩]
    (by rfl)
    ⟨"id", some ⟨"id", "c", "pod", "Env variable not set", "ns"⟩, some ⟨4, none⟩⟩
    (by simp)
    ⟨"id", "c", "pod", "Env variable not set", "ns"⟩
    (by rfl)

/-- A `stat` in which both rename endpoints exist, with size 4. -/
def statAllOk : String → Except IoErrorKind LogMetadataFileInfo :=
  fun _ => .ok ⟨4, none⟩

/-- C7 counterexample: a `Modify` event carrying rename-both information
with both paths is translated into a single `MODIFIED` event for the
first (old) path — not into a `DELETED` event for the old path plus an
`ADDED` event for the new path. -/
theorem transform_rename_counterexample :
    transform_notify_event statAllOk
        ⟨.modify (.name .both), ["podA_ns_c-old.log", "podA_ns_c-new.log"]⟩
        [] "node" =
      some (.ok ⟨"MODIFIED",
        some ⟨"old", some ⟨"old", "c", "podA", "node", "ns"⟩, some ⟨4, none⟩⟩⟩) ∧
    ("MODIFIED" : String) ≠ "DELETED" ∧ ("MODIFIED" : String) ≠ "ADDED" := by
  refine ⟨rfl, by decide, by decide⟩

/-- C7 amended: the translation does not distinguish rename sub-kinds —
every `Modify` event is translated identically for every `ModifyKind`,
only the first path is consulted (the rename-target second path is
ignored), and the single resulting event has type `MODIFIED` when the
first path still exists, or `DELETED` when `stat` fails with not-found;
no `ADDED` event is ever produced from a `Modify`. -/
theorem transform_modify_spec
    (stat : String → Except IoErrorKind LogMetadataFileInfo)
    (mk mk' : ModifyKind) (paths : List String)
    (namespaces : List String) (node_name : String) :
    transform_notify_event stat ⟨.modify mk, paths⟩ namespaces node_name =
      transform_notify_event stat ⟨.modify mk', paths⟩ namespaces node_name ∧
    transform_notify_event stat ⟨.modify mk, paths⟩ namespaces node_name =
      transform_notify_event stat ⟨.modify mk, paths.take 1⟩ namespaces node_name ∧
    (∀ res, transform_notify_event stat ⟨.modify mk, paths⟩ namespaces node_name
        = some (.ok res) →
      ∃ p, paths.head? = some p ∧
        ((∃ fi, stat p = .ok fi ∧ res.type = "MODIFIED") ∨
         (stat p = .error .notFound ∧ res.type = "DELETED"))) := by
  refine ⟨rfl, ?_, ?_⟩
  · cases paths with
    | nil => rfl
    | cons p rest => rfl
  · intro res h
    cases paths with
    | nil => simp [transform_notify_event] at h
    | cons p rest =>
      refine ⟨p, rfl, ?_⟩
      unfold transform_notify_event at h
      simp only [List.head?_cons] at h
      rcases hp : get_log_metadata_spec p namespaces node_name with _ | spec
      · rw [hp] at h; simp at h
      · rw [hp] at h
        rcases hst : stat p with e | fi
        · rw [hst] at h
          dsimp only at h
          by_cases hnf : e = IoErrorKind.notFound
          · rw [if_pos hnf] at h
            simp only [Option.some.injEq, Except.ok.injEq] at h
            refine Or.inr ⟨by rw [hnf], ?_⟩
            rw [← h]
          · rw [if_neg hnf] at h
            simp at h
        · rw [hst] at h
          dsimp only at h
          simp only [Option.some.injEq, Except.ok.injEq] at h
          refine Or.inl ⟨fi, rfl, ?_⟩
          rw [← h]

/-- C7 amended witness: a rename-from `Modify` on a vanished path becomes
a single `DELETED` event for that path. -/
theorem transform_modify_spec_witness :
    ∃ p, (["podA_ns_c-old.log"] : List String).head? = some p ∧
      ((∃ fi, (fun _ => (.error .notFound : Except IoErrorKind LogMetadataFileInfo)) p = .ok fi ∧
          (⟨"DELETED", some ⟨"old", some ⟨"old", "c", "podA", "node", "ns"⟩,
            some ⟨0, none⟩⟩⟩ : LogMetadataWatchEvent).type = "MODIFIED") ∨
       ((fun _ => (.error .notFound : Except IoErrorKind LogMetadataFileInfo)) p
          = .error .notFound ∧
        (⟨"DELETED", some ⟨"old", some ⟨"old", "c", "podA", "node", "ns"⟩,
          some ⟨0, none⟩⟩⟩ : LogMetadataWatchEvent).type = "DELETED")) := by
  exact (transform_modify_spec (fun _ => .error .notFound)
      (.name .fromSide) (.name .fromSide) ["podA_ns_c-old.log"] [] "node").2.2
    ⟨"DELETED", some ⟨"old", some ⟨"old", "c", "podA", "node", "ns"⟩, some ⟨0, none⟩⟩⟩
    rfl

/-! ## Log trimming and record emission
(`crates/rgkl/src/util/reader.rs`, `LogTrimmerReader::refill_buffer_cri`
and `crates/rgkl/src/util/writer.rs`, `process_output` /
`normalize_message`.)

Bytes are modelled as `Nat` (values < 256).  The trimmer is modelled per
line: a `BufReader` over an in-memory source hands `refill_buffer_cri`
the whole remaining input as one `fill_buf` chunk, so the cross-chunk
state (`found_header`, `space_count`, `current_msg_len`,
`truncated_bytes`, `discard_rest_of_line`) collapses into a single pass;
the per-line output is chunking-independent.

`writer.rs` imports `TRUNCATION_HEX_LEN` from `reader.rs`, but
`reader.rs` does not define it — the crate does not even compile as
given.  Its value is forced to 16 by the comment
`sentinel + 16 hex digits + sentinel`, the 16-digit
`u64::from_str_radix(_, 16)` parse, and the `{:016X}` formatting in the
writer's own unit test, so the model fixes it at 16. -/

/-- The truncation sentinel byte `0x1F`. -/
def TRUNCATION_SENTINEL : Nat := 31

/-- See the section comment: forced to 16 by `normalize_message`'s
marker layout. -/
def TRUNCATION_HEX_LEN : Nat := 16

/-- `u64::to_be_bytes`. -/
def u64be (n : Nat) : List Nat :=
  [n / 2 ^ 56 % 256, n / 2 ^ 48 % 256, n / 2 ^ 40 % 256, n / 2 ^ 32 % 256,
   n / 2 ^ 24 % 256, n / 2 ^ 16 % 256, n / 2 ^ 8 % 256, n % 256]

/-- `append_truncation_marker_raw`: 8 big-endian count bytes, the
sentinel, then the newline pushed by the truncation path. -/
def append_truncation_marker_raw (buf : List Nat) (truncated_bytes : Nat) :
    List Nat :=
  buf ++ u64be truncated_bytes ++ [TRUNCATION_SENTINEL, 10]

/-- Header phase of `refill_buffer_cri`: copy bytes until the third
space (header found) or a newline / end of input (line complete without
a recognizable message portion). -/
inductive HeaderResult : Type
  | complete (line : List Nat) (rest : List Nat)
  | header (acc : List Nat) (rest : List Nat)
deriving DecidableEq, Repr

/-- Scan for `\n` or the third space, accumulating into the internal
buffer. -/
def scanHeader : List Nat → Nat → List Nat → HeaderResult
  | [], _, acc => .complete acc []
  | b :: t, space_count, acc =>
    if b = 10 then .complete (acc ++ [10]) t
    else if b = 32 then
      if space_count + 1 = 3 then .header (acc ++ [32]) t
      else scanHeader t (space_count + 1) (acc ++ [32])
    else scanHeader t space_count (acc ++ [b])

/-- One `refill_buffer_cri` call: `none` when the input is exhausted,
otherwise the produced line (internal buffer contents) and the remaining
input.  With `truncate_at_bytes = 0` truncation is disabled. -/
def refill_buffer_cri (truncate_at_bytes : Nat) (input : List Nat) :
    Option (List Nat × List Nat) :=
  if input = [] then none
  else
    match scanHeader input 0 [] with
    | .complete line rest => some (line, rest)
    | .header header_acc rest =>
      let msg := rest.takeWhile fun b => b ≠ 10
      let bytes_until_newline := msg.length
      if 0 < truncate_at_bytes ∧ truncate_at_bytes < bytes_until_newline then
        let truncated_bytes := bytes_until_newline - truncate_at_bytes
        let after := rest.drop bytes_until_newline
        some (append_truncation_marker_raw
            (header_acc ++ msg.take truncate_at_bytes) truncated_bytes,
          after.drop 1)
      else
        let after := rest.drop bytes_until_newline
        if after = [] then some (header_acc ++ msg, [])
        else some (header_acc ++ msg ++ [10], after.drop 1)

/-- Strip all trailing `\n`/`\r` bytes
(`raw.trim_end_matches(|c| c == '\n' || c == '\r')`). -/
def trimTrailNewlines (l : List Nat) : List Nat :=
  (l.reverse.dropWhile fun b => b = 10 ∨ b = 13).reverse

/-- ASCII hex-digit test (`b'0'..=b'9' | b'a'..=b'f' | b'A'..=b'F'`). -/
def isHexDigit (b : Nat) : Bool :=
  (48 ≤ b ∧ b ≤ 57) ∨ (97 ≤ b ∧ b ≤ 102) ∨ (65 ≤ b ∧ b ≤ 70)

/-- Value of an ASCII hex digit. -/
def hexVal (b : Nat) : Nat :=
  if b ≤ 57 then b - 48 else if b ≤ 70 then b - 55 else b - 87

/-- `u64::from_str_radix(hex_str, 16)` on hex-digit bytes. -/
def hexToNat (l : List Nat) : Nat :=
  l.foldl (fun acc b => acc * 16 + hexVal b) 0

/-- `normalize_message` from `writer.rs`: strip trailing newlines, then
look for an 18-byte marker `sentinel + 16 hex digits + sentinel` at the
end; on a match return the pre-marker prefix with
`original_size_bytes = prefix length + parsed count` and
`is_truncated = true`, otherwise the stripped text verbatim.
(The `String::from_utf8_lossy` re-decoding is modelled as the identity
on bytes; `original_size_bytes` uses the byte length before decoding in
the source as well.)  Returns `(message, original_size_bytes,
is_truncated)`. -/
def normalize_message (raw : List Nat) : List Nat × Nat × Bool :=
  let trimmed := trimTrailNewlines raw
  if TRUNCATION_HEX_LEN + 2 ≤ trimmed.length ∧
      trimmed.getLast? = some TRUNCATION_SENTINEL then
    let suffix_start := trimmed.length - (TRUNCATION_HEX_LEN + 2)
    let message_bytes := trimmed.take suffix_start
    let suffix := trimmed.drop suffix_start
    if suffix.head? = some TRUNCATION_SENTINEL then
      let hex_bytes := (suffix.drop 1).take TRUNCATION_HEX_LEN
      if hex_bytes.all isHexDigit then
        (message_bytes, message_bytes.length + hexToNat hex_bytes, true)
      else (trimmed, trimmed.length, false)
    else (trimmed, trimmed.length, false)
  else (trimmed, trimmed.length, false)

/-- Split a byte list at the first occurrence of byte `c`
(`str::split_once`). -/
def splitFirstByte (c : Nat) : List Nat → Option (List Nat × List Nat)
  | [] => none
  | x :: t =>
    if x = c then some ([], t)
    else (splitFirstByte c t).map fun p => (x :: p.1, p.2)

/-- A `LogRecord` (timestamp kept as its raw byte text). -/
structure LogRecord : Type where
  timestamp : List Nat
  message : List Nat
  original_size_bytes : Nat
  is_truncated : Bool
deriving DecidableEq, Repr

/-- The CRI branch of `process_output` applied to one matched line
`text`: split at the first space, require at least the 9 bytes
`"stdout F "` after it, and normalize the message portion `rest[9..]`. -/
def process_output_cri (text : List Nat) : Option LogRecord :=
  match splitFirstByte 32 text with
  | none => none
  | some (first, rest) =>
    if rest.length < 9 then none
    else
      let n := normalize_message (rest.drop 9)
      some ⟨first, n.1, n.2.1, n.2.2⟩

/-- ASCII bytes of a string literal. -/
def strBytes (s : String) : List Nat :=
  s.toList.map Char.toNat

/-- C1: the trimmer/emitter marker formats disagree.  For the CRI line
`2024-11-20T10:00:00Z stdout F 1234567890` with limit 5, the trimmer
emits the first 5 message bytes followed by its 9-byte raw marker
(8-byte big-endian count `5`, then `0x1F`), but `normalize_message`
looks for an 18-byte `0x1F + 16 hex + 0x1F` marker and finds none: the
emitted record has `isTruncated = false`, a message that still carries
the 9 marker bytes (not `"12345"`), and `originalSizeBytes = 14` (not
the pre-truncation length 10 = emittedLen + recoveredCount). -/
theorem trimmer_emitter_marker_mismatch :
    refill_buffer_cri 5 (strBytes "2024-11-20T10:00:00Z stdout F 1234567890\n") =
      some (strBytes "2024-11-20T10:00:00Z stdout F 12345" ++
        [0, 0, 0, 0, 0, 0, 0, 5, 31, 10], []) ∧
    process_output_cri (strBytes "2024-11-20T10:00:00Z stdout F 12345" ++
        [0, 0, 0, 0, 0, 0, 0, 5, 31, 10]) =
      some ⟨strBytes "2024-11-20T10:00:00Z",
        strBytes "12345" ++ [0, 0, 0, 0, 0, 0, 0, 5, 31], 14, false⟩ ∧
    (strBytes "12345" ++ [0, 0, 0, 0, 0, 0, 0, 5, 31]) ≠ strBytes "12345" ∧
    (false = true → False) ∧ 14 ≠ 10 := by
  exact ⟨by decide, by decide, by decide, by decide, by decide⟩

/-- C10 counterexample: a truncated record emitted by the record emitter
whose message ends with `'\n'`.  The message portion is
`"hi\n"` followed by a well-formed 18-byte marker; `normalize_message`
strips no trailing newline (the sentinel is last), detects the marker,
and returns the message `"hi\n"` — trailing newline included — with
`isTruncated = true`. -/
theorem normalize_message_trailing_newline_counterexample :
    (process_output_cri (strBytes "2024-11-20T10:00:00Z stdout F hi" ++ [10, 31] ++
        strBytes "0000000000000003" ++ [31])).map
        (fun r => (r.message.getLast?, r.is_truncated)) =
      some (some 10, true) := by
  decide

theorem head?_dropWhile_not {α : Type} (p : α → Bool) (l : List α) {b : α}
    (h : (l.dropWhile p).head? = some b) : p b = false := by
  induction l with
  | nil => simp [List.dropWhile] at h
  | cons x t ih =>
    rw [List.dropWhile] at h
    by_cases hp : p x
    · simp only [hp] at h
      exact ih h
    · simp only [Bool.not_eq_true] at hp
      simp only [hp] at h
      simp only [List.head?_cons, Option.some.injEq] at h
      rw [← h]
      exact hp

theorem trimTrailNewlines_getLast {raw : List Nat} {b : Nat}
    (h : (trimTrailNewlines raw).getLast? = some b) : b ≠ 10 ∧ b ≠ 13 := by
  unfold trimTrailNewlines at h
  rw [List.getLast?_reverse] at h
  have := head?_dropWhile_not (fun x => decide (x = 10 ∨ x = 13)) raw.reverse h
  simp only [decide_eq_false_iff_not, not_or] at this
  exact this

/-- C10 amended: `normalize_message` strips all trailing `'\n'`/`'\r'`
bytes before the truncation-marker check (so the stripped text never
ends in one); every NON-truncated record's message equals the stripped
text — hence has no trailing `'\n'`/`'\r'` — with `originalSizeBytes`
equal to its byte length; a truncated record's message is the stripped
text minus the trailing 18-byte marker, and may itself end in a
newline. -/
theorem normalize_message_cases (raw : List Nat) :
    normalize_message raw =
      (trimTrailNewlines raw, (trimTrailNewlines raw).length, false) ∨
    ((normalize_message raw).2.2 = true ∧
      (normalize_message raw).1 =
        (trimTrailNewlines raw).take
          ((trimTrailNewlines raw).length - (TRUNCATION_HEX_LEN + 2))) := by
  unfold normalize_message
  dsimp only
  split_ifs with h1 h2 h3
  · exact Or.inr ⟨rfl, rfl⟩
  · exact Or.inl rfl
  · exact Or.inl rfl
  · exact Or.inl rfl

theorem normalize_message_spec (raw : List Nat) :
    (∀ b, (trimTrailNewlines raw).getLast? = some b → b ≠ 10 ∧ b ≠ 13) ∧
    ((normalize_message raw).2.2 = false →
      (normalize_message raw).1 = trimTrailNewlines raw ∧
      (normalize_message raw).2.1 = (trimTrailNewlines raw).length ∧
      (∀ b, (normalize_message raw).1.getLast? = some b → b ≠ 10 ∧ b ≠ 13)) ∧
    ((normalize_message raw).2.2 = true →
      (normalize_message raw).1 =
        (trimTrailNewlines raw).take
          ((trimTrailNewlines raw).length - (TRUNCATION_HEX_LEN + 2))) := by
  have hc := normalize_message_cases raw
  refine ⟨fun b h => trimTrailNewlines_getLast h, ?_, ?_⟩
  · intro h
    rcases hc with he | ⟨ht, _⟩
    · rw [he]
      exact ⟨rfl, rfl, fun b hb => trimTrailNewlines_getLast hb⟩
    · rw [h] at ht
      exact absurd ht (by simp)
  · intro h
    rcases hc with he | ⟨_, hm⟩
    · rw [he] at h
      simp at h
    · exact hm

/-- C10 amended witness: a non-truncated record keeps the stripped text
with `originalSizeBytes = 5` and no trailing newline. -/
theorem normalize_message_spec_witness :
    (normalize_message (strBytes "hello" ++ [10])).1 =
      trimTrailNewlines (strBytes "hello" ++ [10]) ∧
    (normalize_message (strBytes "hello" ++ [10])).2.1 =
      (trimTrailNewlines (strBytes "hello" ++ [10])).length ∧
    (∀ b, (normalize_message (strBytes "hello" ++ [10])).1.getLast? = some b →
      b ≠ 10 ∧ b ≠ 13) := by
  exact (normalize_message_spec (strBytes "hello" ++ [10])).2.1 (by decide)

/-! ## Timestamp parsing for the offset index
(`crates/rgkl/src/util/offset.rs`, `parse_timestamp`.)

A line starting with a left brace is parsed as JSON and the timestamp is
taken from the top-level `"timestamp"` field; otherwise the token before
the first space is parsed as RFC 3339.  The RFC 3339 parser itself
(`chrono::DateTime::parse_from_rfc3339`) is external and is abstracted
as a parameter `parseRfc`; JSON parsing (`serde_json::from_str`) is
modelled by a small parser for the flat string-valued objects that
Docker-JSON log lines are (escapes are kept verbatim — irrelevant to the
claims; any JSON outside this subset yields `none`, which
`parse_timestamp` treats exactly like a parse error in the source). -/

/-- Left brace character (`'\x7b'`). -/
def braceOpen : Char := Char.ofNat 123

/-- Right brace character (`'\x7d'`). -/
def braceClose : Char := Char.ofNat 125

/-- Skip JSON insignificant whitespace. -/
def skipWs (l : List Char) : List Char :=
  l.dropWhile fun c => c = ' ' ∨ c = '\t' ∨ c = '\n' ∨ c = '\r'

/-- Parse a JSON string body after the opening quote; a backslash takes
the following character verbatim. -/
def parseStringBody : List Char → List Char → Option (String × List Char)
  | [], _ => none
  | '"' :: t, acc => some (String.mk acc.reverse, t)
  | '\\' :: c :: t, acc => parseStringBody t (c :: acc)
  | '\\' :: [], _ => none
  | c :: t, acc => parseStringBody t (c :: acc)

/-- Parse the `"key":"value"` pairs of a flat JSON object (after the
opening brace), requiring the input to be fully consumed. -/
def parsePairs : Nat → List Char → List (String × String) →
    Option (List (String × String))
  | 0, _, _ => none
  | fuel + 1, l, acc =>
    match skipWs l with
    | '"' :: t =>
      match parseStringBody t [] with
      | none => none
      | some (key, r1) =>
        match skipWs r1 with
        | ':' :: r2 =>
          match skipWs r2 with
          | '"' :: r3 =>
            match parseStringBody r3 [] with
            | none => none
            | some (val, r4) =>
              match skipWs r4 with
              | ',' :: r5 => parsePairs fuel r5 ((key, val) :: acc)
              | c :: r6 =>
                if c = braceClose ∧ skipWs r6 = [] then
                  some ((key, val) :: acc).reverse
                else none
              | [] => none
          | _ => none
        | _ => none
    | _ => none

/-- Parse a flat string-valued JSON object. -/
def parseJsonFlat (s : String) : Option (List (String × String)) :=
  match skipWs s.toList with
  | c :: t =>
    if c = braceOpen then
      match skipWs t with
      | c' :: r =>
        if c' = braceClose then (if skipWs r = [] then some [] else none)
        else parsePairs (t.length + 1) t []
      | [] => none
    else none
  | [] => none

/-- `parse_timestamp` from `offset.rs`: lines starting with a left brace
are parsed as JSON and the `"timestamp"` field is extracted (its absence
is an error, i.e. `none`); otherwise the line is split at the first
space (`splitn(2, ' ')`; fewer than two parts is an error) and the first
token is given to the RFC 3339 parser. -/
def parse_timestamp (parseRfc : String → Option Int) (line : String) :
    Option Int :=
  if line.toList.head? = some braceOpen then
    match parseJsonFlat line with
    | none => none
    | some obj =>
      match obj.find? fun kv => kv.1 = "timestamp" with
      | some kv => parseRfc kv.2
      | none => none
  else
    match splitFirst ' ' line.toList with
    | none => none
    | some (first, _) => parseRfc (String.mk first)

/-- C3: the offset index never reads the `"time"` field of a Docker-JSON
line.  On a genuine Docker-JSON line — whose JSON object has exactly the
fields `log`, `stream` and `time` — `parse_timestamp` fails for every
RFC 3339 parser (it looks up a `"timestamp"` key that Docker-JSON does
not have), whereas it does read a `"timestamp"` field when one is
present. -/
theorem parse_timestamp_ignores_time_field
    (parseRfc : String → Option Int) :
    parseJsonFlat
        "\x7b\"log\":\"hello\",\"stream\":\"stdout\",\"time\":\"2024-10-01T05:40:46.960135302Z\"\x7d"
      = some [("log", "hello"), ("stream", "stdout"),
          ("time", "2024-10-01T05:40:46.960135302Z")] ∧
    parse_timestamp parseRfc
        "\x7b\"log\":\"hello\",\"stream\":\"stdout\",\"time\":\"2024-10-01T05:40:46.960135302Z\"\x7d"
      = none ∧
    parse_timestamp parseRfc
        "\x7b\"timestamp\":\"2024-10-01T05:40:46.960135302Z\"\x7d"
      = parseRfc "2024-10-01T05:40:46.960135302Z" := by
  refine ⟨by decide, ?_, ?_⟩
  · show (if _ then _ else _) = none
    rw [if_pos (by decide)]
    have hobj : parseJsonFlat
        "\x7b\"log\":\"hello\",\"stream\":\"stdout\",\"time\":\"2024-10-01T05:40:46.960135302Z\"\x7d"
      = some [("log", "hello"), ("stream", "stdout"),
          ("time", "2024-10-01T05:40:46.960135302Z")] := by decide
    rw [hobj]
    dsimp only
    have hfind : (([("log", "hello"), ("stream", "stdout"),
          ("time", "2024-10-01T05:40:46.960135302Z")] :
        List (String × String)).find? fun kv => kv.1 = "timestamp") = none := by
      decide
    rw [hfind]
  · show (if _ then _ else _) = _
    rw [if_pos (by decide)]
    have hobj : parseJsonFlat "\x7b\"timestamp\":\"2024-10-01T05:40:46.960135302Z\"\x7d"
      = some [("timestamp", "2024-10-01T05:40:46.960135302Z")] := by decide
    rw [hobj]
    dsimp only
    have hfind : (([("timestamp", "2024-10-01T05:40:46.960135302Z")] :
        List (String × String)).find? fun kv => kv.1 = "timestamp")
      = some ("timestamp", "2024-10-01T05:40:46.960135302Z") := by decide
    rw [hfind]

/-! ## Reverse line reader
(`crates/rgkl/src/util/reader.rs`, `ReverseLineReader::next_line`.)

State: `pos` (the file position, chunks are read backwards from it
towards `min_pos = 0`), `buf` the active chunk region
(`buf[buf_start..buf_end]` in the source; `buf_start` is always 0, so
the region is the list itself), and `line_buf`, the bytes of a line
spanning chunks, stored reversed.  One fuel tick corresponds to one pass
of the `loop` in `next_line`; the emitted lines of a whole reader run
over the byte slice `B` (range `[0, B.length)`) are collected by
`emitGo`. -/

/-- Reverse reader chunk size (64 KiB). -/
def REVERSE_READER_CHUNK_SIZE : Nat := 65536

/-- `memchr::memrchr(b'\n', ..)`: index of the last newline byte. -/
def memrchrNl : List Nat → Option Nat
  | [] => none
  | c :: t =>
    match memrchrNl t with
    | some j => some (j + 1)
    | none => if c = 10 then some 0 else none

/-- Reverse reader state. -/
structure RState : Type where
  pos : Nat
  buf : List Nat
  line_buf : List Nat
deriving DecidableEq, Repr

/-- `fill_buf`: seek back by `min(CHUNK, pos - min_pos)` and read that
chunk. -/
def rfill (B : List Nat) (s : RState) : RState :=
  let size := min REVERSE_READER_CHUNK_SIZE s.pos
  ⟨s.pos - size, (B.drop (s.pos - size)).take size, s.line_buf⟩

/-- The `next_line` loop, run to exhaustion and collecting every emitted
line.  The branches are, in source order: newline at the buffer's end
(skip it when nothing is accumulated, else emit the accumulated line
with a newline appended); newline with content after it (emit that
content plus the accumulated bytes plus a newline); no newline
(accumulate the chunk reversed, then either flush at `min_pos` or read
the previous chunk). -/
def emitGo (B : List Nat) : Nat → RState → List (List Nat)
  | 0, _ => []
  | fuel + 1, s =>
    match memrchrNl s.buf with
    | some np =>
      if np + 1 = s.buf.length then
        if s.line_buf = [] then
          emitGo B fuel ⟨s.pos, s.buf.take np, []⟩
        else
          (s.line_buf.reverse ++ [10]) :: emitGo B fuel ⟨s.pos, s.buf.take np, []⟩
      else
        (s.buf.drop (np + 1) ++ s.line_buf.reverse ++ [10]) ::
          emitGo B fuel ⟨s.pos, s.buf.take np, []⟩
    | none =>
      let lb := s.line_buf ++ s.buf.reverse
      if s.pos = 0 then
        if lb = [] then [] else [lb.reverse]
      else
        emitGo B fuel (rfill B ⟨s.pos, [], lb⟩)

/-- `ReverseLineReader::new(B, 0, B.length)`: seek to `max_pos`. -/
def reverseLineReader_init (B : List Nat) : RState :=
  ⟨B.length, [], []⟩

/-- Loop-pass measure: every pass either consumes a chunk byte or reads
an earlier chunk. -/
def rmeasure (s : RState) : Nat :=
  s.pos * (REVERSE_READER_CHUNK_SIZE + 2) + s.buf.length + s.line_buf.length

/-- Fuel sufficient for a full run from the initial state. -/
def rfuel (B : List Nat) : Nat :=
  B.length * (REVERSE_READER_CHUNK_SIZE + 2) + 1

/-- All lines emitted by a reverse line reader over `[0, B.length)`, in
emission (reverse) order. -/
def reverse_lines (B : List Nat) : List (List Nat) :=
  emitGo B (rfuel B) (reverseLineReader_init B)

theorem memrchrNl_lt : ∀ {l : List Nat} {j : Nat}, memrchrNl l = some j → j < l.length := by
  intro l
  induction l with
  | nil => intro j h; simp [memrchrNl] at h
  | cons c t ih =>
    intro j h
    rw [memrchrNl] at h
    rcases hm : memrchrNl t with _ | j'
    · rw [hm] at h
      by_cases hc : c = 10
      · rw [if_pos hc] at h
        simp only [Option.some.injEq] at h
        simp [← h]
      · rw [if_neg hc] at h
        exact absurd h (by simp)
    · rw [hm] at h
      simp only [Option.some.injEq] at h
      have := ih hm
      simp [← h]
      omega

/-- Specification-side renormalisation, walking the byte slice from its
last byte towards its first (`rb` is the reversed remaining input, `lb`
the current line accumulated in reverse): a newline met with an empty
accumulator is skipped (trailing or empty line); a newline met with a
nonempty accumulator emits that line with exactly one synthetic newline;
any other byte is accumulated; the residue is flushed bare.  `gspecRev
B.reverse []` is the renormalised emission the reader produces. -/
def gspecRev : List Nat → List Nat → List (List Nat)
  | [], lb => if lb = [] then [] else [lb.reverse]
  | c :: rb, lb =>
    if c = 10 then
      if lb = [] then gspecRev rb []
      else (lb.reverse ++ [10]) :: gspecRev rb []
    else gspecRev rb (lb ++ [c])

theorem memrchrNl_none_not_mem : ∀ {l : List Nat}, memrchrNl l = none → 10 ∉ l := by
  intro l
  induction l with
  | nil => intro _; simp
  | cons c t ih =>
    intro h
    rw [memrchrNl] at h
    rcases hm : memrchrNl t with _ | j'
    · rw [hm] at h
      by_cases hc : c = 10
      · rw [if_pos hc] at h; exact absurd h (by simp)
      · intro hmem
        rcases List.mem_cons.mp hmem with he | hmem'
        · exact hc he.symm
        · exact ih hm hmem'
    · rw [hm] at h; exact absurd h (by simp)

theorem memrchrNl_some_decomp : ∀ {l : List Nat} {j : Nat}, memrchrNl l = some j →
    ∃ pre suf, l = pre ++ 10 :: suf ∧ pre.length = j ∧ memrchrNl suf = none := by
  intro l
  induction l with
  | nil => intro j h; simp [memrchrNl] at h
  | cons c t ih =>
    intro j h
    rw [memrchrNl] at h
    rcases hm : memrchrNl t with _ | j'
    · rw [hm] at h
      by_cases hc : c = 10
      · rw [if_pos hc] at h
        simp only [Option.some.injEq] at h
        exact ⟨[], t, by simp [hc], by simp [← h], hm⟩
      · rw [if_neg hc] at h
        exact absurd h (by simp)
    · rw [hm] at h
      simp only [Option.some.injEq] at h
      rcases ih hm with ⟨pre, suf, hl, hlen, hsuf⟩
      exact ⟨c :: pre, suf, by simp [hl], by simp [hlen, ← h], hsuf⟩

/-- Walking a newline-free segment only accumulates it. -/
theorem gspecRev_walk : ∀ (R : List Nat), 10 ∉ R → ∀ (T lb : List Nat),
    gspecRev (R ++ T) lb = gspecRev T (lb ++ R) := by
  intro R
  induction R with
  | nil => intro _ T lb; simp
  | cons c R' ih =>
    intro hmem T lb
    have hc : ¬c = 10 := fun hcc => hmem (by rw [hcc]; exact List.mem_cons_self _ _)
    show gspecRev (c :: (R' ++ T)) lb = _
    rw [gspecRev, if_neg hc, ih (fun hx => hmem (List.mem_cons_of_mem _ hx)),
      List.append_cons lb c R']

theorem take_length_add {α : Type} (X : List α) (n : Nat) :
    ∀ Y : List α, (X ++ Y).take (X.length + n) = X ++ Y.take n := by
  induction X with
  | nil => intro Y; simp
  | cons c X' ih =>
    intro Y
    have h : (c :: X').length + n = (X'.length + n) + 1 := by simp; omega
    rw [h]
    show ((c :: (X' ++ Y)).take ((X'.length + n) + 1)) = _
    rw [List.take_succ_cons, ih]
    rfl

theorem drop_length_add {α : Type} (X : List α) (n : Nat) :
    ∀ Y : List α, (X ++ Y).drop (X.length + n) = Y.drop n := by
  induction X with
  | nil => intro Y; simp
  | cons c X' ih =>
    intro Y
    have h : (c :: X').length + n = (X'.length + n) + 1 := by simp; omega
    rw [h]
    show ((c :: (X' ++ Y)).drop ((X'.length + n) + 1)) = _
    rw [List.drop_succ_cons, ih]

theorem emitGo_spec (B : List Nat) : ∀ (fuel : Nat) (s : RState),
    rmeasure s < fuel →
    emitGo B fuel s = gspecRev ((B.take s.pos ++ s.buf).reverse) s.line_buf := by
  intro fuel
  induction fuel with
  | zero => intro s h; exact absurd h (by omega)
  | succ fuel ih =>
    intro s hf
    obtain ⟨pos, buf, lb⟩ := s
    simp only [rmeasure] at hf
    simp only [emitGo]
    rcases hm : memrchrNl buf with _ | np
    · -- no newline in the chunk: accumulate, then flush or refill
      dsimp only
      have hnotmem : 10 ∉ buf.reverse := by
        rw [List.mem_reverse]
        exact memrchrNl_none_not_mem hm
      by_cases hpos : pos = 0
      · rw [if_pos hpos, hpos]
        have hw := gspecRev_walk buf.reverse hnotmem ([] : List Nat) lb
        simp only [List.append_nil] at hw
        simp only [List.take_zero, List.nil_append]
        rw [hw, gspecRev]
      · rw [if_neg hpos]
        have hchunklen :
            ((B.drop (pos - min REVERSE_READER_CHUNK_SIZE pos)).take
              (min REVERSE_READER_CHUNK_SIZE pos)).length ≤
              min REVERSE_READER_CHUNK_SIZE pos := by
          simp [List.length_take]
        rw [ih (rfill B ⟨pos, [], lb ++ buf.reverse⟩) ?_]
        · simp only [rfill]
          have hglue : B.take (pos - min REVERSE_READER_CHUNK_SIZE pos) ++
              (B.drop (pos - min REVERSE_READER_CHUNK_SIZE pos)).take
                (min REVERSE_READER_CHUNK_SIZE pos) = B.take pos := by
            rw [← List.take_add]
            have hps : pos - min REVERSE_READER_CHUNK_SIZE pos +
                min REVERSE_READER_CHUNK_SIZE pos = pos := by
              have := Nat.min_le_right REVERSE_READER_CHUNK_SIZE pos
              omega
            rw [hps]
          rw [hglue]
          have hw := gspecRev_walk buf.reverse hnotmem ((B.take pos).reverse) lb
          rw [← hw, ← List.reverse_append]
        · simp only [rmeasure, rfill, REVERSE_READER_CHUNK_SIZE] at hf hchunklen ⊢
          simp only [List.length_append, List.length_reverse, List.length_nil]
          omega
    · -- a newline was found at relative index np
      dsimp only
      obtain ⟨pre, suf, hdec, hlen, hsuf⟩ := memrchrNl_some_decomp hm
      have hnp := memrchrNl_lt hm
      have hbuflen : buf.length = pre.length + 1 + suf.length := by
        rw [hdec]
        simp
        omega
      have htake : buf.take np = pre := by
        rw [hdec, ← hlen]
        have h0 := take_length_add pre 0 (10 :: suf)
        simpa using h0
      have htakelen : (buf.take np).length = np := by
        rw [htake, hlen]
      have hmeas : rmeasure ⟨pos, buf.take np, []⟩ < fuel := by
        simp only [rmeasure, htakelen, List.length_nil]
        omega
      by_cases hend : np + 1 = buf.length
      · rw [if_pos hend]
        have hsufnil : suf = [] := by
          have : suf.length = 0 := by omega
          exact List.length_eq_zero.mp this
        have hbuf : buf = pre ++ [10] := by rw [hdec, hsufnil]
        have hrev : (B.take pos ++ buf).reverse =
            10 :: (B.take pos ++ pre).reverse := by
          rw [hbuf]
          simp
        rw [hrev]
        by_cases hlb : lb = []
        · rw [if_pos hlb, ih ⟨pos, buf.take np, []⟩ hmeas, htake, hlb]
          rw [gspecRev]
          simp
        · rw [if_neg hlb, ih ⟨pos, buf.take np, []⟩ hmeas, htake]
          rw [gspecRev]
          simp [hlb]
      · rw [if_neg hend]
        have hsufne : suf ≠ [] := by
          intro hc
          rw [hc] at hbuflen
          simp at hbuflen
          omega
        have hdrop : buf.drop (np + 1) = suf := by
          rw [hdec, ← hlen]
          have h1 := drop_length_add pre 1 (10 :: suf)
          simpa using h1
        have hrev : (B.take pos ++ buf).reverse =
            suf.reverse ++ 10 :: (B.take pos ++ pre).reverse := by
          rw [hdec]
          simp
        have hnotmem : 10 ∉ suf.reverse := by
          rw [List.mem_reverse]
          exact memrchrNl_none_not_mem hsuf
        have hlbne : ¬lb ++ suf.reverse = [] := by
          intro hc
          have h2 := (List.append_eq_nil.mp hc).2
          have h3 : suf = [] := by
            have h4 := congrArg List.reverse h2
            simpa using h4
          exact hsufne h3
        rw [hrev,
          gspecRev_walk suf.reverse hnotmem (10 :: (B.take pos ++ pre).reverse) lb,
          ih ⟨pos, buf.take np, []⟩ hmeas, htake, hdrop]
        rw [gspecRev]
        simp [hlbne]

/-- C5 counterexample: for `B = "a\n"` (which ends at a line boundary,
so the claim demands exact reproduction), the reader emits `["a"]`;
reversing and concatenating gives `"a"`, not `B`: the final newline is
consumed by the skip branch and never re-emitted. -/
theorem reverse_line_reader_counterexample :
    reverse_lines [97, 10] = [[97]] ∧
    (reverse_lines [97, 10]).reverse.flatten = [97] ∧
    ([97] : List Nat) ≠ [97, 10] ∧
    ([97, 10] : List Nat).getLast? = some 10 := by
  refine ⟨by decide, by decide, by decide, by decide⟩

/-- C5 amended: the reader reproduces `B` only up to newline
renormalisation.  The emitted sequence equals the right-to-left walk
`gspecRev B.reverse []`: scanning `B` from its last byte, a newline with
an empty accumulator (the trailing newline of the range, or an empty
line) is dropped; every other line is emitted as its content followed by
exactly one synthetic newline (present even when `B`'s own last line had
none); the residue before `B`'s first newline is flushed without a
newline. -/
theorem reverse_lines_eq_gspecRev (B : List Nat) :
    reverse_lines B = gspecRev B.reverse [] := by
  unfold reverse_lines reverseLineReader_init
  rw [emitGo_spec B (rfuel B) ⟨B.length, [], []⟩ (by
    simp only [rmeasure, rfuel, List.length_nil]
    omega)]
  simp

/-! ## Timestamp offset index
(`crates/rgkl/src/util/offset.rs`, `find_nearest_offset` /
`scan_timestamp`.)

The file is modelled at line granularity: each line carries its byte
length `blen` (including the trailing newline; `read_line`'s
`bytes_read`) and, for every byte offset `k` inside the line, the
`parse_timestamp` outcome `suf k` of the suffix of the line starting at
`k` after `trim_end` — `some (timestamp, trimmed length)` on success.
Seeking to an arbitrary byte offset and calling `read_line` returns the
remainder of the containing line, and `scan_timestamp` hands that
remainder to `parse_timestamp`, so a proper mid-line suffix CAN parse:
a CRI message that embeds an RFC 3339 token followed by a space, or an
embedded `\x7b...\x7d` JSON object carrying a `timestamp` field, parses
from mid-line.  `suf 0` is the outcome on the full trimmed line; its
components are the line's leading timestamp `ts` and trimmed length
`tlen` (`line.trim_end().len()`, the `line_length` the index reports).
Timestamps are abstracted as `Int` (chrono instants are totally
ordered).  The `i64` offsets of the source are `Int` (`/` on the
non-negative values reached here agrees with Rust's truncating
division); the binary-search and scan loops run on fuel proven
sufficient below. -/

/-- One line of the probed file: its byte length and the
`parse_timestamp` outcome of each of its trimmed suffixes. -/
structure FLine : Type where
  blen : Nat
  suf : Nat → Option (Int × Nat)
deriving Inhabited

/-- The line's own `parse_timestamp` result (timestamp of the suffix at
offset 0, i.e. of the whole trimmed line). -/
def FLine.ts (l : FLine) : Option Int :=
  (l.suf 0).map Prod.fst

/-- The line's trimmed length as reported by a successful parse at its
start (`line.trim_end().len()`). -/
def FLine.tlen (l : FLine) : Nat :=
  ((l.suf 0).map Prod.snd).getD 0

/-- Line `i` of the file (a default dummy out of range). -/
def lineAt (file : List FLine) (i : Nat) : FLine :=
  file.getD i default

/-- Byte offset at which line `i` starts. -/
def lineStart : List FLine → Nat → Nat
  | _, 0 => 0
  | [], _ + 1 => 0
  | l :: rest, i + 1 => l.blen + lineStart rest i

/-- Total byte length of the file (= `max_offset` for a full-range
search). -/
def totalLen : List FLine → Nat
  | [] => 0
  | l :: rest => l.blen + totalLen rest

/-- Find the line containing byte `pos`: its start offset and the line. -/
def locate : List FLine → Nat → Option (Nat × FLine)
  | [], _ => none
  | l :: rest, pos =>
    if pos < l.blen then some (0, l)
    else (locate rest (pos - l.blen)).map fun p => (l.blen + p.1, p.2)

/-- One `read_line` from byte `pos`: the number of bytes read (0 at end
of file, otherwise the remainder of the containing line) paired with
the `parse_timestamp` outcome of the trimmed remainder — the containing
line's suffix starting `pos - base` bytes in. -/
def read_line (file : List FLine) (pos : Nat) : Nat × Option (Int × Nat) :=
  match locate file pos with
  | none => (0, none)
  | some (base, l) => (base + l.blen - pos, l.suf (pos - base))

/-- `scan_timestamp`'s loop (`while pos <= right`), on fuel. -/
def scanGo (file : List FLine) (right start_pos : Int) :
    Nat → Int → Int × Option (Int × Nat)
  | 0, _ => (start_pos, none)
  | fuel + 1, pos =>
    if pos ≤ right then
      let r := read_line file pos.toNat
      if r.1 = 0 then (start_pos, none)
      else
        match r.2 with
        | some v => (pos, some v)
        | none => scanGo file right start_pos fuel (pos + (r.1 : Int))
    else (start_pos, none)

/-- `scan_timestamp(reader, right, start_pos)`. -/
def scan_timestamp (file : List FLine) (right start_pos : Int) :
    Int × Option (Int × Nat) :=
  scanGo file right start_pos ((right + 1 - start_pos).toNat + 1) start_pos

/-- An offset result (`Offset { byte_offset, line_length }`). -/
structure Offset : Type where
  byte_offset : Nat
  line_length : Nat
deriving DecidableEq, Repr

/-- `FindMode` (`untl` models `Until`). -/
inductive FindMode : Type
  | since
  | untl
deriving DecidableEq, Repr

/-- The binary-search loop of `find_nearest_offset`, on fuel. -/
def findLoop (file : List FLine) (target_time : Int) (mode : FindMode) :
    Nat → Int → Int → Option Offset → Option Offset
  | 0, _, _, result => result
  | fuel + 1, left, right, result =>
    if left ≤ right then
      let mid := (left + right) / 2
      match scan_timestamp file right mid with
      | (new_mid, some (ts, line_length)) =>
        match mode with
        | .since =>
          if target_time ≤ ts then
            findLoop file target_time mode fuel left (new_mid - 1)
              (some ⟨new_mid.toNat, line_length⟩)
          else
            findLoop file target_time mode fuel (new_mid + 1) right result
        | .untl =>
          if ts ≤ target_time then
            findLoop file target_time mode fuel (new_mid + 1) right
              (some ⟨new_mid.toNat, line_length⟩)
          else
            findLoop file target_time mode fuel left (new_mid - 1) result
      | (new_mid, none) =>
        findLoop file target_time mode fuel left (new_mid - 1) result
    else result

/-- `find_nearest_offset`. -/
def find_nearest_offset (file : List FLine) (target_time : Int)
    (min_offset max_offset : Nat) (mode : FindMode) : Option Offset :=
  if max_offset = 0 then none
  else
    findLoop file target_time mode (max_offset + 1)
      (min_offset : Int) ((max_offset : Int) - 1) none

/-- `find_nearest_offset_since`. -/
def find_nearest_offset_since (file : List FLine) (target_time : Int)
    (min_offset max_offset : Nat) : Option Offset :=
  find_nearest_offset file target_time min_offset max_offset .since

/-- `find_nearest_offset_until`. -/
def find_nearest_offset_until (file : List FLine) (target_time : Int)
    (min_offset max_offset : Nat) : Option Offset :=
  find_nearest_offset file target_time min_offset max_offset .untl

/-- Does line `l` satisfy the mode's bound against the target? -/
def qualifies (target_time : Int) (mode : FindMode) (l : FLine) : Bool :=
  match l.ts with
  | some t =>
    match mode with
    | .since => target_time ≤ t
    | .untl => t ≤ target_time
  | none => false

/-- Index of the earliest qualifying line. -/
def earliestQ (target_time : Int) (mode : FindMode) : List FLine → Option Nat
  | [] => none
  | l :: rest =>
    if qualifies target_time mode l then some 0
    else (earliestQ target_time mode rest).map (· + 1)

/-- Index of the latest qualifying line. -/
def latestQ (target_time : Int) (mode : FindMode) : List FLine → Option Nat
  | [] => none
  | l :: rest =>
    match latestQ target_time mode rest with
    | some j => some (j + 1)
    | none => if qualifies target_time mode l then some 0 else none

/-- The `Offset` reported for line `i`. -/
def idxOffset (file : List FLine) (i : Nat) : Offset :=
  ⟨lineStart file i, (lineAt file i).tlen⟩

theorem totalLen_eq_lineStart_length (file : List FLine) :
    totalLen file = lineStart file file.length := by
  induction file with
  | nil => rfl
  | cons l rest ih => simp [totalLen, lineStart, ih]

theorem lineStart_succ (file : List FLine) : ∀ i, i < file.length →
    lineStart file (i + 1) = lineStart file i + (lineAt file i).blen := by
  induction file with
  | nil => intro i hi; simp at hi
  | cons l rest ih =>
    intro i hi
    cases i with
    | zero => simp [lineStart, lineAt]
    | succ i' =>
      have hi' : i' < rest.length := by simpa using hi
      show l.blen + lineStart rest (i' + 1) = _
      rw [ih i' hi']
      simp [lineStart, lineAt, List.getD_cons_succ]
      omega

theorem lineStart_mono (file : List FLine) : ∀ i j, i ≤ j →
    lineStart file i ≤ lineStart file j := by
  induction file with
  | nil =>
    intro i j _
    cases i <;> cases j <;> simp [lineStart]
  | cons l rest ih =>
    intro i j hij
    cases i with
    | zero => cases j <;> simp [lineStart]
    | succ i' =>
      cases j with
      | zero => omega
      | succ j' =>
        have := ih i' j' (by omega)
        simp [lineStart]
        omega

theorem lineStart_le_totalLen : ∀ (file : List FLine) (i : Nat),
    lineStart file i ≤ totalLen file := by
  intro file
  induction file with
  | nil => intro i; cases i <;> simp [lineStart, totalLen]
  | cons l rest ih =>
    intro i
    cases i with
    | zero => simp [lineStart]
    | succ i' =>
      have := ih i'
      simp [lineStart, totalLen]
      omega

theorem lineAt_mem : ∀ (file : List FLine) (i : Nat), i < file.length →
    lineAt file i ∈ file := by
  intro file
  induction file with
  | nil => intro i h; simp at h
  | cons l rest ih =>
    intro i h
    cases i with
    | zero => exact List.mem_cons_self _ _
    | succ i' => exact List.mem_cons_of_mem _ (ih i' (by simpa using h))

theorem lineStart_add_blen_le (file : List FLine)
    (hpos : ∀ l ∈ file, 0 < l.blen) : ∀ i j, i < j → j ≤ file.length →
    lineStart file i + (lineAt file i).blen ≤ lineStart file j := by
  intro i j hij hj
  have hi : i < file.length := by omega
  have h1 : lineStart file (i + 1) = lineStart file i + (lineAt file i).blen :=
    lineStart_succ file i hi
  have h2 : lineStart file (i + 1) ≤ lineStart file j :=
    lineStart_mono file (i + 1) j (by omega)
  omega

theorem lineStart_lt_totalLen (file : List FLine)
    (hpos : ∀ l ∈ file, 0 < l.blen) : ∀ i, i < file.length →
    lineStart file i < totalLen file := by
  intro i hi
  have h1 := lineStart_succ file i hi
  have h2 := lineStart_le_totalLen file (i + 1)
  have h3 : 0 < (lineAt file i).blen := hpos _ (lineAt_mem file i hi)
  omega

theorem locate_none (file : List FLine) : ∀ pos, totalLen file ≤ pos →
    locate file pos = none := by
  induction file with
  | nil => intro pos _; rfl
  | cons l rest ih =>
    intro pos h
    rw [locate]
    have ht : totalLen (l :: rest) = l.blen + totalLen rest := rfl
    rw [if_neg (by omega)]
    rw [ih (pos - l.blen) (by omega)]
    rfl

theorem locate_spec (file : List FLine) (hpos : ∀ l ∈ file, 0 < l.blen) :
    ∀ pos, pos < totalLen file →
    ∃ i, i < file.length ∧
      locate file pos = some (lineStart file i, lineAt file i) ∧
      lineStart file i ≤ pos ∧
      pos < lineStart file i + (lineAt file i).blen := by
  induction file with
  | nil => intro pos h; simp [totalLen] at h
  | cons l rest ih =>
    intro pos h
    rw [locate]
    by_cases hlt : pos < l.blen
    · exact ⟨0, by simp, by rw [if_pos hlt]; rfl, by simp [lineStart],
        by simpa [lineStart, lineAt] using hlt⟩
    · rw [if_neg hlt]
      have hrest : pos - l.blen < totalLen rest := by
        have : totalLen (l :: rest) = l.blen + totalLen rest := rfl
        omega
      rcases ih (fun x hx => hpos x (List.mem_cons_of_mem _ hx))
          (pos - l.blen) hrest with ⟨i, hi, hloc, hb1, hb2⟩
      refine ⟨i + 1, by simpa using hi, ?_, ?_, ?_⟩
      · rw [hloc]
        show some (l.blen + lineStart rest i, lineAt rest i) = _
        have hls : lineStart (l :: rest) (i + 1) = l.blen + lineStart rest i := rfl
        have hla : lineAt (l :: rest) (i + 1) = lineAt rest i := rfl
        rw [hls, hla]
      · have hls : lineStart (l :: rest) (i + 1) = l.blen + lineStart rest i := rfl
        omega
      · have hls : lineStart (l :: rest) (i + 1) = l.blen + lineStart rest i := rfl
        have hla : lineAt (l :: rest) (i + 1) = lineAt rest i := rfl
        rw [hls, hla]
        omega

/-- Least index `< n` satisfying `p`. -/
def leastIdx (p : Nat → Bool) : Nat → Option Nat
  | 0 => none
  | n + 1 =>
    match leastIdx p n with
    | some i => some i
    | none => if p n then some n else none

theorem leastIdx_none_iff (p : Nat → Bool) : ∀ n,
    leastIdx p n = none ↔ ∀ i, i < n → ¬p i = true := by
  intro n
  induction n with
  | zero => simp [leastIdx]
  | succ n ih =>
    rw [leastIdx]
    rcases hl : leastIdx p n with _ | i
    · rw [hl] at ih
      by_cases hp : p n
      · rw [if_pos hp]
        simp only [iff_iff_implies_and_implies]
        constructor
        · intro hc; exact absurd hc (by simp)
        · intro hall; exact absurd hp (hall n (by omega))
      · rw [if_neg hp]
        simp only [true_iff]
        intro i hi
        by_cases hin : i < n
        · exact (ih.mp rfl) i hin
        · have : i = n := by omega
          rw [this]
          exact hp
    · simp only [iff_iff_implies_and_implies]
      constructor
      · intro hc; exact absurd hc (by simp)
      · intro hall
        have hi := (ih.mpr (fun i hi => hall i (by omega)))
        rw [hl] at hi
        exact absurd hi (by simp)

theorem leastIdx_some (p : Nat → Bool) : ∀ n i,
    leastIdx p n = some i → i < n ∧ p i = true ∧ ∀ j, j < i → ¬p j = true := by
  intro n
  induction n with
  | zero => intro i h; simp [leastIdx] at h
  | succ n ih =>
    intro i h
    rw [leastIdx] at h
    rcases hl : leastIdx p n with _ | i'
    · rw [hl] at h
      by_cases hp : p n
      · rw [if_pos hp] at h
        simp only [Option.some.injEq] at h
        refine ⟨by omega, by rw [← h]; exact hp, ?_⟩
        intro j hj
        exact ((leastIdx_none_iff p n).mp hl) j (by omega)
      · rw [if_neg hp] at h
        exact absurd h (by simp)
    · rw [hl] at h
      simp only [Option.some.injEq] at h
      rcases ih i' hl with ⟨h1, h2, h3⟩
      rw [← h]
      exact ⟨by omega, h2, h3⟩

theorem leastIdx_intro (p : Nat → Bool) (n i : Nat)
    (hi : i < n) (hp : p i = true) (hmin : ∀ j, j < i → ¬p j = true) :
    leastIdx p n = some i := by
  rcases hl : leastIdx p n with _ | i'
  · exact absurd hp (((leastIdx_none_iff p n).mp hl) i hi)
  · rcases leastIdx_some p n i' hl with ⟨_, hp', hmin'⟩
    have : i' = i := by
      rcases Nat.lt_trichotomy i' i with hlt | heq | hgt
      · exact absurd hp' (hmin i' hlt)
      · exact heq
      · exact absurd hp (hmin' i hgt)
    rw [this]

theorem leastIdx_congr (p q : Nat → Bool) : ∀ n, (∀ i, i < n → p i = q i) →
    leastIdx p n = leastIdx q n := by
  intro n
  induction n with
  | zero => intro _; rfl
  | succ n ih =>
    intro hpq
    rw [leastIdx, leastIdx, ih (fun i hi => hpq i (by omega)),
      hpq n (by omega)]

/-- The first line the scan starting at `pos` can accept: least index of
a parseable line whose start lies in `[pos, right]`. -/
def firstHit (file : List FLine) (pos right : Int) : Option Nat :=
  leastIdx
    (fun i => decide ((lineAt file i).ts.isSome = true ∧
      pos ≤ (lineStart file i : Int) ∧ (lineStart file i : Int) ≤ right))
    file.length

theorem ts_of_suf0 {l : FLine} {p : Int × Nat} (h : l.suf 0 = some p) :
    l.ts = some p.1 ∧ l.tlen = p.2 := by
  simp [FLine.ts, FLine.tlen, h]

theorem scanGo_spec (file : List FLine) (hpos : ∀ l ∈ file, 0 < l.blen)
    (hclean : ∀ i, i < file.length → ∀ k, k < (lineAt file i).blen →
      0 < k → (lineAt file i).suf k = none)
    (right start_pos : Int) :
    ∀ (fuel : Nat) (pos : Int), 0 ≤ pos → (right + 1 - pos).toNat < fuel →
    (firstHit file pos right = none →
      scanGo file right start_pos fuel pos = (start_pos, none)) ∧
    (∀ i, firstHit file pos right = some i →
      ∃ t, (lineAt file i).ts = some t ∧
        scanGo file right start_pos fuel pos =
          ((lineStart file i : Int), some (t, (lineAt file i).tlen))) := by
  intro fuel
  induction fuel with
  | zero => intro pos _ hf; exact absurd hf (by omega)
  | succ fuel ih =>
    intro pos hge hf
    have hcast : ((pos.toNat : Int)) = pos := Int.toNat_of_nonneg hge
    simp only [scanGo]
    by_cases hpr : pos ≤ right
    · rw [if_pos hpr]
      by_cases heof : totalLen file ≤ pos.toNat
      · have hrl : read_line file pos.toNat = (0, none) := by
          rw [read_line, locate_none file _ heof]
        rw [hrl]
        dsimp only
        rw [if_pos rfl]
        constructor
        · intro _; rfl
        · intro i hi
          rcases leastIdx_some _ _ _ hi with ⟨hilen, hp, _⟩
          rcases of_decide_eq_true hp with ⟨_, hple, _⟩
          have hlt := lineStart_lt_totalLen file hpos i hilen
          omega
      · rcases locate_spec file hpos pos.toNat (by omega) with
          ⟨i0, hi0, hloc, hb1, hb2⟩
        have hrl : read_line file pos.toNat =
            (lineStart file i0 + (lineAt file i0).blen - pos.toNat,
              (lineAt file i0).suf (pos.toNat - lineStart file i0)) := by
          rw [read_line, hloc]
        rw [hrl]
        dsimp only
        rw [if_neg (by omega)]
        have hstep := lineStart_succ file i0 hi0
        by_cases hstart : pos.toNat = lineStart file i0
        · have h00 : pos.toNat - lineStart file i0 = 0 := by omega
          rw [h00]
          rcases hts : (lineAt file i0).suf 0 with _ | p
          · -- the line at the probe start does not parse: skip it
            have htsn : (lineAt file i0).ts = none := by
              simp [FLine.ts, hts]
            dsimp only
            have hpos' : pos +
                ((lineStart file i0 + (lineAt file i0).blen - pos.toNat : Nat) : Int) =
                ((lineStart file i0 + (lineAt file i0).blen : Nat) : Int) := by
              push_cast
              omega
            rw [hpos']
            have hIH := ih ((lineStart file i0 + (lineAt file i0).blen : Nat) : Int)
              (by positivity) (by omega)
            have hcong : firstHit file pos right =
                firstHit file ((lineStart file i0 + (lineAt file i0).blen : Nat) : Int)
                  right := by
              apply leastIdx_congr
              intro i hilen
              apply decide_eq_decide.mpr
              constructor
              · rintro ⟨hsome, hple, hpri⟩
                refine ⟨hsome, ?_, hpri⟩
                by_cases hii : i ≤ i0
                · rcases Nat.eq_or_lt_of_le hii with heq | hlt
                  · rw [heq] at hsome
                    rw [htsn] at hsome
                    simp at hsome
                  · have h4 := lineStart_add_blen_le file hpos i i0 hlt (by omega)
                    have hbj : 0 < (lineAt file i).blen :=
                      hpos _ (lineAt_mem file i hilen)
                    omega
                · have h2 : i0 + 1 ≤ i := by omega
                  have h3 := lineStart_mono file (i0 + 1) i h2
                  omega
              · rintro ⟨hsome, hple, hpri⟩
                refine ⟨hsome, by omega, hpri⟩
            rw [hcong]
            exact hIH
          · -- parseable line found at the probe position
            rcases ts_of_suf0 hts with ⟨htseq, htleq⟩
            dsimp only
            have hp0 : (fun i => decide ((lineAt file i).ts.isSome = true ∧
                pos ≤ (lineStart file i : Int) ∧
                (lineStart file i : Int) ≤ right)) i0 = true := by
              apply decide_eq_true
              refine ⟨by rw [htseq]; rfl, by omega, by omega⟩
            have hmin : ∀ j, j < i0 → ¬(fun i =>
                decide ((lineAt file i).ts.isSome = true ∧
                  pos ≤ (lineStart file i : Int) ∧
                  (lineStart file i : Int) ≤ right)) j = true := by
              intro j hj hc
              rcases of_decide_eq_true hc with ⟨_, hple, _⟩
              have := lineStart_add_blen_le file hpos j i0 hj (by omega)
              have hbj : 0 < (lineAt file j).blen :=
                hpos _ (lineAt_mem file j (by omega))
              omega
            have hfh : firstHit file pos right = some i0 :=
              leastIdx_intro _ _ _ hi0 hp0 hmin
            constructor
            · intro hc; rw [hfh] at hc; exact absurd hc (by simp)
            · intro i hi
              rw [hfh] at hi
              simp only [Option.some.injEq] at hi
              rw [← hi]
              refine ⟨p.1, htseq, ?_⟩
              have hpe : pos = ((lineStart file i0 : Nat) : Int) := by omega
              rw [hpe, htleq]
        · -- probe landed mid-line: this partial read does not parse here
          have hmidn : (lineAt file i0).suf (pos.toNat - lineStart file i0) =
              none :=
            hclean i0 hi0 _ (by omega) (by omega)
          rw [hmidn]
          dsimp only
          have hpos' : pos +
              ((lineStart file i0 + (lineAt file i0).blen - pos.toNat : Nat) : Int) =
              ((lineStart file i0 + (lineAt file i0).blen : Nat) : Int) := by
            push_cast
            omega
          rw [hpos']
          have hIH := ih ((lineStart file i0 + (lineAt file i0).blen : Nat) : Int)
            (by positivity) (by omega)
          have hcong : firstHit file pos right =
              firstHit file ((lineStart file i0 + (lineAt file i0).blen : Nat) : Int)
                right := by
            apply leastIdx_congr
            intro i hilen
            apply decide_eq_decide.mpr
            constructor
            · rintro ⟨hsome, hple, hpri⟩
              refine ⟨hsome, ?_, hpri⟩
              by_cases hii : i ≤ i0
              · have h3 := lineStart_mono file i i0 hii
                omega
              · have h2 : i0 + 1 ≤ i := by omega
                have h3 := lineStart_mono file (i0 + 1) i h2
                omega
            · rintro ⟨hsome, hple, hpri⟩
              refine ⟨hsome, by omega, hpri⟩
          rw [hcong]
          exact hIH
    · rw [if_neg hpr]
      constructor
      · intro _; rfl
      · intro i hi
        rcases leastIdx_some _ _ _ hi with ⟨_, hp, _⟩
        rcases of_decide_eq_true hp with ⟨_, hple, hpri⟩
        omega

/-- `scan_timestamp` characterised by `firstHit` (its internal fuel is
sufficient). -/
theorem scan_timestamp_spec (file : List FLine)
    (hpos : ∀ l ∈ file, 0 < l.blen)
    (hclean : ∀ i, i < file.length → ∀ k, k < (lineAt file i).blen →
      0 < k → (lineAt file i).suf k = none)
    (right start_pos : Int) (hge : 0 ≤ start_pos) :
    (firstHit file start_pos right = none →
      scan_timestamp file right start_pos = (start_pos, none)) ∧
    (∀ i, firstHit file start_pos right = some i →
      ∃ t, (lineAt file i).ts = some t ∧
        scan_timestamp file right start_pos =
          ((lineStart file i : Int), some (t, (lineAt file i).tlen))) :=
  scanGo_spec file hpos hclean right start_pos _ start_pos hge (by omega)

theorem qualifies_since_iff (target_time : Int) (l : FLine) :
    qualifies target_time .since l = true ↔
      ∃ t, l.ts = some t ∧ target_time ≤ t := by
  cases h : l.ts <;> simp [qualifies, h]

theorem qualifies_untl_iff (target_time : Int) (l : FLine) :
    qualifies target_time .untl l = true ↔
      ∃ t, l.ts = some t ∧ t ≤ target_time := by
  cases h : l.ts <;> simp [qualifies, h]

theorem qualifies_isSome {target_time : Int} {mode : FindMode} {l : FLine}
    (h : qualifies target_time mode l = true) : l.ts.isSome = true := by
  cases hts : l.ts
  · rw [qualifies, hts] at h; simp at h
  · rfl

theorem lineAt_cons_succ (l : FLine) (rest : List FLine) (i : Nat) :
    lineAt (l :: rest) (i + 1) = lineAt rest i := rfl

theorem earliestQ_none_iff (target_time : Int) (mode : FindMode) :
    ∀ file : List FLine, earliestQ target_time mode file = none ↔
      ∀ i, i < file.length → ¬qualifies target_time mode (lineAt file i) = true := by
  intro file
  induction file with
  | nil => simp [earliestQ]
  | cons l rest ih =>
    rw [earliestQ]
    by_cases hq : qualifies target_time mode l = true
    · rw [if_pos hq]
      simp only [iff_iff_implies_and_implies]
      exact ⟨fun hc => absurd hc (by simp),
        fun hall => absurd hq (by simpa [lineAt] using hall 0 (by simp))⟩
    · rw [if_neg hq]
      simp only [Option.map_eq_none', ih, iff_iff_implies_and_implies]
      constructor
      · intro hall i hi
        cases i with
        | zero => simpa [lineAt] using hq
        | succ i' =>
          rw [lineAt_cons_succ]
          exact hall i' (by simpa using hi)
      · intro hall i hi
        have := hall (i + 1) (by simpa using hi)
        rwa [lineAt_cons_succ] at this

theorem earliestQ_intro (target_time : Int) (mode : FindMode) :
    ∀ (file : List FLine) (i0 : Nat), i0 < file.length →
    qualifies target_time mode (lineAt file i0) = true →
    (∀ j, j < i0 → ¬qualifies target_time mode (lineAt file j) = true) →
    earliestQ target_time mode file = some i0 := by
  intro file
  induction file with
  | nil => intro i0 h; simp at h
  | cons l rest ih =>
    intro i0 hi0 hq hmin
    rw [earliestQ]
    cases i0 with
    | zero =>
      rw [if_pos (by simpa [lineAt] using hq)]
    | succ i0' =>
      have hl : ¬qualifies target_time mode l = true := by
        simpa [lineAt] using hmin 0 (by omega)
      rw [if_neg hl]
      rw [ih i0' (by simpa using hi0) (by rwa [lineAt_cons_succ] at hq)
        (fun j hj => by
          have := hmin (j + 1) (by omega)
          rwa [lineAt_cons_succ] at this)]
      rfl

theorem latestQ_none_iff (target_time : Int) (mode : FindMode) :
    ∀ file : List FLine, latestQ target_time mode file = none ↔
      ∀ i, i < file.length → ¬qualifies target_time mode (lineAt file i) = true := by
  intro file
  induction file with
  | nil => simp [latestQ]
  | cons l rest ih =>
    rw [latestQ]
    rcases hr : latestQ target_time mode rest with _ | j
    · dsimp only
      by_cases hq : qualifies target_time mode l = true
      · rw [if_pos hq]
        simp only [iff_iff_implies_and_implies]
        exact ⟨fun hc => absurd hc (by simp),
          fun hall => absurd hq (by simpa [lineAt] using hall 0 (by simp))⟩
      · rw [if_neg hq]
        simp only [iff_iff_implies_and_implies]
        constructor
        · intro _ i hi
          cases i with
          | zero => simpa [lineAt] using hq
          | succ i' =>
            rw [lineAt_cons_succ]
            exact (ih.mp hr) i' (by simpa using hi)
        · intro _; trivial
    · dsimp only
      simp only [iff_iff_implies_and_implies]
      constructor
      · intro hc; exact absurd hc (by simp)
      · intro hall
        have h2 : latestQ target_time mode rest = none := by
          rw [ih]
          intro i hi
          have := hall (i + 1) (by simpa using hi)
          rwa [lineAt_cons_succ] at this
        rw [h2] at hr
        exact absurd hr (by simp)

theorem latestQ_intro (target_time : Int) (mode : FindMode) :
    ∀ (file : List FLine) (i0 : Nat), i0 < file.length →
    qualifies target_time mode (lineAt file i0) = true →
    (∀ j, i0 < j → j < file.length →
      ¬qualifies target_time mode (lineAt file j) = true) →
    latestQ target_time mode file = some i0 := by
  intro file
  induction file with
  | nil => intro i0 h; simp at h
  | cons l rest ih =>
    intro i0 hi0 hq hmax
    rw [latestQ]
    cases i0 with
    | zero =>
      have hrest : latestQ target_time mode rest = none := by
        rw [latestQ_none_iff]
        intro i hi
        have := hmax (i + 1) (by omega) (by simpa using hi)
        rwa [lineAt_cons_succ] at this
      rw [hrest, if_pos (by simpa [lineAt] using hq)]
    | succ i0' =>
      have hrest : latestQ target_time mode rest = some i0' :=
        ih i0' (by simpa using hi0) (by rwa [lineAt_cons_succ] at hq)
          (fun j hj1 hj2 => by
            have := hmax (j + 1) (by omega) (by simpa using hj2)
            rwa [lineAt_cons_succ] at this)
      rw [hrest]

theorem firstHit_none {file : List FLine} {pos right : Int}
    (h : firstHit file pos right = none) :
    ∀ i, i < file.length → (lineAt file i).ts.isSome = true →
      pos ≤ (lineStart file i : Int) → ¬(lineStart file i : Int) ≤ right := by
  intro i hi hsome hppos hle
  rw [firstHit] at h
  exact (leastIdx_none_iff _ _).mp h i hi (decide_eq_true ⟨hsome, hppos, hle⟩)

theorem firstHit_some {file : List FLine} {pos right : Int} {i1 : Nat}
    (h : firstHit file pos right = some i1) :
    i1 < file.length ∧ (lineAt file i1).ts.isSome = true ∧
      pos ≤ (lineStart file i1 : Int) ∧ (lineStart file i1 : Int) ≤ right ∧
      ∀ j, j < i1 → (lineAt file j).ts.isSome = true →
        pos ≤ (lineStart file j : Int) → ¬(lineStart file j : Int) ≤ right := by
  rw [firstHit] at h
  rcases leastIdx_some _ _ _ h with ⟨hlen, hp, hmin⟩
  rcases of_decide_eq_true hp with ⟨h1, h2, h3⟩
  exact ⟨hlen, h1, h2, h3, fun j hj hjs hjp hjr =>
    hmin j hj (decide_eq_true ⟨hjs, hjp, hjr⟩)⟩

theorem idx_le_of_start_le (file : List FLine)
    (hpos : ∀ l ∈ file, 0 < l.blen) {i j : Nat}
    (hi : i ≤ file.length) (hj : j < file.length)
    (hle : lineStart file i ≤ lineStart file j) : i ≤ j := by
  by_contra hc
  have h1 : lineStart file j + (lineAt file j).blen ≤ lineStart file i :=
    lineStart_add_blen_le file hpos j i (by omega) hi
  have h2 : 0 < (lineAt file j).blen := hpos _ (lineAt_mem file j hj)
  omega

theorem idx_lt_of_start_lt (file : List FLine) {i j : Nat}
    (hlt : lineStart file i < lineStart file j) : i < j := by
  by_contra hc
  have := lineStart_mono file j i (by omega)
  omega

theorem findLoop_since_spec (file : List FLine) (target_time : Int)
    (hpos : ∀ l ∈ file, 0 < l.blen)
    (hclean : ∀ i, i < file.length → ∀ k, k < (lineAt file i).blen →
      0 < k → (lineAt file i).suf k = none)
    (hmono : ∀ i j, i ≤ j → j < file.length → ∀ ti tj,
      (lineAt file i).ts = some ti → (lineAt file j).ts = some tj →
      ti ≤ tj) :
    ∀ (fuel : Nat) (left right : Int) (result : Option Offset),
    (right + 1 - left).toNat < fuel → 0 ≤ left →
    (result = none →
      ∀ i, i < file.length →
        qualifies target_time .since (lineAt file i) = true →
        left ≤ (lineStart file i : Int) ∧ (lineStart file i : Int) ≤ right) →
    (∀ o, result = some o →
      ∃ i0, i0 < file.length ∧
        qualifies target_time .since (lineAt file i0) = true ∧
        o = idxOffset file i0 ∧ right < (lineStart file i0 : Int) ∧
        ∀ i, i < file.length →
          qualifies target_time .since (lineAt file i) = true →
          i0 ≤ i ∨ (left ≤ (lineStart file i : Int) ∧
            (lineStart file i : Int) ≤ right)) →
    findLoop file target_time .since fuel left right result =
      (earliestQ target_time .since file).map (idxOffset file) := by
  intro fuel
  induction fuel with
  | zero => intro left right result hf; exact absurd hf (by omega)
  | succ fuel ih =>
    intro left right result hf hl hnone hsome
    simp only [findLoop]
    by_cases hlr : left ≤ right
    · rw [if_pos hlr]
      have hmge : (0 : Int) ≤ (left + right) / 2 := by omega
      have hm1 : left ≤ (left + right) / 2 := by omega
      have hm2 : (left + right) / 2 ≤ right := by omega
      have hscan := scan_timestamp_spec file hpos hclean right ((left + right) / 2) hmge
      rcases hfh : firstHit file ((left + right) / 2) right with _ | i1
      · rw [hscan.1 hfh]
        dsimp only
        refine ih left ((left + right) / 2 - 1) result (by omega) hl ?_ ?_
        · intro hres i hi hqi
          rcases hnone hres i hi hqi with ⟨hwl, hwr⟩
          refine ⟨hwl, ?_⟩
          have hnp := firstHit_none hfh i hi (qualifies_isSome hqi)
          by_cases hmi : (left + right) / 2 ≤ (lineStart file i : Int)
          · exact absurd hwr (hnp hmi)
          · omega
        · intro o hres
          rcases hsome o hres with ⟨i0, hlen0, hq0, ho0, hrg0, hwin0⟩
          refine ⟨i0, hlen0, hq0, ho0, by omega, ?_⟩
          intro i hi hqi
          rcases hwin0 i hi hqi with hge0 | ⟨hwl, hwr⟩
          · exact Or.inl hge0
          · refine Or.inr ⟨hwl, ?_⟩
            have hnp := firstHit_none hfh i hi (qualifies_isSome hqi)
            by_cases hmi : (left + right) / 2 ≤ (lineStart file i : Int)
            · exact absurd hwr (hnp hmi)
            · omega
      · rcases hscan.2 i1 hfh with ⟨t1, hts1, heq⟩
        rw [heq]
        dsimp only
        rcases firstHit_some hfh with ⟨hi1len, hi1some, hi1ge, hi1le, hi1min⟩
        by_cases hcmp : target_time ≤ t1
        · rw [if_pos hcmp]
          refine ih left ((lineStart file i1 : Int) - 1) _
            (by omega) hl ?_ ?_
          · intro hc; exact absurd hc (by simp)
          · intro o ho
            have hoe : o = idxOffset file i1 := by
              have := ho.symm
              simp only [Option.some_inj] at this
              rw [this, idxOffset]
              simp
            refine ⟨i1, hi1len, ?_, hoe, by omega, ?_⟩
            · rw [qualifies_since_iff]; exact ⟨t1, hts1, hcmp⟩
            · intro i hi hqi
              have hcase : left ≤ (lineStart file i : Int) ∧
                  (lineStart file i : Int) ≤ right → i1 ≤ i ∨
                  (left ≤ (lineStart file i : Int) ∧
                    (lineStart file i : Int) ≤ (lineStart file i1 : Int) - 1) := by
                rintro ⟨hwl, hwr⟩
                by_cases hmi : (left + right) / 2 ≤ (lineStart file i : Int)
                · left
                  by_contra hc
                  exact hi1min i (by omega) (qualifies_isSome hqi) hmi hwr
                · right; exact ⟨hwl, by omega⟩
              rcases hres : result with _ | o0
              · exact hcase (hnone hres i hi hqi)
              · rcases hsome o0 hres with ⟨i0, hlen0, _, _, hrg0, hwin0⟩
                rcases hwin0 i hi hqi with hge0 | hw
                · left
                  have hlt : lineStart file i1 < lineStart file i0 := by omega
                  have := idx_lt_of_start_lt file hlt
                  omega
                · exact hcase hw
        · rw [if_neg hcmp]
          have hpush : ∀ i, i < file.length →
              qualifies target_time .since (lineAt file i) = true →
              (lineStart file i1 : Int) + 1 ≤ (lineStart file i : Int) := by
            intro i hi hqi
            rcases (qualifies_since_iff target_time _).mp hqi with ⟨ti, htsi, hti⟩
            have hii : i1 < i := by
              by_contra hc
              have := hmono i i1 (by omega) hi1len ti t1 htsi hts1
              omega
            have h1 := lineStart_add_blen_le file hpos i1 i hii (by omega)
            have h2 : 0 < (lineAt file i1).blen :=
              hpos _ (lineAt_mem file i1 hi1len)
            omega
          refine ih ((lineStart file i1 : Int) + 1) right result
            (by omega) (by omega) ?_ ?_
          · intro hres i hi hqi
            exact ⟨hpush i hi hqi, (hnone hres i hi hqi).2⟩
          · intro o ho
            rcases hsome o ho with ⟨i0, hlen0, hq0, ho0, hrg0, hwin0⟩
            refine ⟨i0, hlen0, hq0, ho0, hrg0, ?_⟩
            intro i hi hqi
            rcases hwin0 i hi hqi with hge0 | ⟨_, hwr⟩
            · exact Or.inl hge0
            · exact Or.inr ⟨hpush i hi hqi, hwr⟩
    · rw [if_neg hlr]
      rcases hres : result with _ | o
      · rw [hres] at hnone
        have h0 : ∀ i, i < file.length →
            ¬qualifies target_time .since (lineAt file i) = true := by
          intro i hi hqi
          rcases hnone rfl i hi hqi with ⟨hwl, hwr⟩
          omega
        rw [(earliestQ_none_iff target_time .since file).mpr h0]
        rfl
      · rw [hres] at hsome
        rcases hsome o rfl with ⟨i0, hlen0, hq0, ho0, _, hwin0⟩
        have hmin : ∀ j, j < i0 →
            ¬qualifies target_time .since (lineAt file j) = true := by
          intro j hj hqj
          rcases hwin0 j (by omega) hqj with hge | ⟨hwl, hwr⟩
          · omega
          · omega
        rw [earliestQ_intro target_time .since file i0 hlen0 hq0 hmin]
        simp [ho0]

theorem findLoop_untl_spec (file : List FLine) (target_time : Int)
    (hpos : ∀ l ∈ file, 0 < l.blen)
    (hclean : ∀ i, i < file.length → ∀ k, k < (lineAt file i).blen →
      0 < k → (lineAt file i).suf k = none)
    (hmono : ∀ i j, i ≤ j → j < file.length → ∀ ti tj,
      (lineAt file i).ts = some ti → (lineAt file j).ts = some tj →
      ti ≤ tj) :
    ∀ (fuel : Nat) (left right : Int) (result : Option Offset),
    (right + 1 - left).toNat < fuel → 0 ≤ left →
    (result = none →
      ∀ i, i < file.length →
        qualifies target_time .untl (lineAt file i) = true →
        left ≤ (lineStart file i : Int) ∧ (lineStart file i : Int) ≤ right) →
    (∀ o, result = some o →
      ∃ i0, i0 < file.length ∧
        qualifies target_time .untl (lineAt file i0) = true ∧
        o = idxOffset file i0 ∧ (lineStart file i0 : Int) < left ∧
        ∀ i, i < file.length →
          qualifies target_time .untl (lineAt file i) = true →
          i ≤ i0 ∨ (left ≤ (lineStart file i : Int) ∧
            (lineStart file i : Int) ≤ right)) →
    findLoop file target_time .untl fuel left right result =
      (latestQ target_time .untl file).map (idxOffset file) := by
  intro fuel
  induction fuel with
  | zero => intro left right result hf; exact absurd hf (by omega)
  | succ fuel ih =>
    intro left right result hf hl hnone hsome
    simp only [findLoop]
    by_cases hlr : left ≤ right
    · rw [if_pos hlr]
      have hmge : (0 : Int) ≤ (left + right) / 2 := by omega
      have hm1 : left ≤ (left + right) / 2 := by omega
      have hm2 : (left + right) / 2 ≤ right := by omega
      have hscan := scan_timestamp_spec file hpos hclean right ((left + right) / 2) hmge
      rcases hfh : firstHit file ((left + right) / 2) right with _ | i1
      · rw [hscan.1 hfh]
        dsimp only
        refine ih left ((left + right) / 2 - 1) result (by omega) hl ?_ ?_
        · intro hres i hi hqi
          rcases hnone hres i hi hqi with ⟨hwl, hwr⟩
          refine ⟨hwl, ?_⟩
          have hnp := firstHit_none hfh i hi (qualifies_isSome hqi)
          by_cases hmi : (left + right) / 2 ≤ (lineStart file i : Int)
          · exact absurd hwr (hnp hmi)
          · omega
        · intro o hres
          rcases hsome o hres with ⟨i0, hlen0, hq0, ho0, hlt0, hwin0⟩
          refine ⟨i0, hlen0, hq0, ho0, hlt0, ?_⟩
          intro i hi hqi
          rcases hwin0 i hi hqi with hle0 | ⟨hwl, hwr⟩
          · exact Or.inl hle0
          · refine Or.inr ⟨hwl, ?_⟩
            have hnp := firstHit_none hfh i hi (qualifies_isSome hqi)
            by_cases hmi : (left + right) / 2 ≤ (lineStart file i : Int)
            · exact absurd hwr (hnp hmi)
            · omega
      · rcases hscan.2 i1 hfh with ⟨t1, hts1, heq⟩
        rw [heq]
        dsimp only
        rcases firstHit_some hfh with ⟨hi1len, hi1some, hi1ge, hi1le, hi1min⟩
        by_cases hcmp : t1 ≤ target_time
        · rw [if_pos hcmp]
          refine ih ((lineStart file i1 : Int) + 1) right _
            (by omega) (by omega) ?_ ?_
          · intro hc; exact absurd hc (by simp)
          · intro o ho
            have hoe : o = idxOffset file i1 := by
              have := ho.symm
              simp only [Option.some_inj] at this
              rw [this, idxOffset]
              simp
            refine ⟨i1, hi1len, ?_, hoe, by omega, ?_⟩
            · rw [qualifies_untl_iff]; exact ⟨t1, hts1, hcmp⟩
            · intro i hi hqi
              have hcase : left ≤ (lineStart file i : Int) ∧
                  (lineStart file i : Int) ≤ right → i ≤ i1 ∨
                  ((lineStart file i1 : Int) + 1 ≤ (lineStart file i : Int) ∧
                    (lineStart file i : Int) ≤ right) := by
                rintro ⟨hwl, hwr⟩
                by_cases hsi : lineStart file i ≤ lineStart file i1
                · exact Or.inl (idx_le_of_start_le file hpos (by omega)
                    hi1len hsi)
                · exact Or.inr ⟨by omega, hwr⟩
              rcases hres : result with _ | o0
              · exact hcase (hnone hres i hi hqi)
              · rcases hsome o0 hres with ⟨i0, hlen0, _, _, hlt0, hwin0⟩
                rcases hwin0 i hi hqi with hle0 | hw
                · left
                  have hlt : lineStart file i0 < lineStart file i1 := by omega
                  have := idx_lt_of_start_lt file hlt
                  omega
                · exact hcase hw
        · rw [if_neg hcmp]
          have hpush : ∀ i, i < file.length →
              qualifies target_time .untl (lineAt file i) = true →
              (lineStart file i : Int) ≤ (lineStart file i1 : Int) - 1 := by
            intro i hi hqi
            rcases (qualifies_untl_iff target_time _).mp hqi with ⟨ti, htsi, hti⟩
            have hii : i < i1 := by
              by_contra hc
              have := hmono i1 i (by omega) hi t1 ti hts1 htsi
              omega
            have h1 := lineStart_add_blen_le file hpos i i1 hii (by omega)
            have h2 : 0 < (lineAt file i).blen :=
              hpos _ (lineAt_mem file i hi)
            omega
          refine ih left ((lineStart file i1 : Int) - 1) result
            (by omega) hl ?_ ?_
          · intro hres i hi hqi
            exact ⟨(hnone hres i hi hqi).1, hpush i hi hqi⟩
          · intro o ho
            rcases hsome o ho with ⟨i0, hlen0, hq0, ho0, hlt0, hwin0⟩
            refine ⟨i0, hlen0, hq0, ho0, hlt0, ?_⟩
            intro i hi hqi
            rcases hwin0 i hi hqi with hle0 | ⟨hwl, _⟩
            · exact Or.inl hle0
            · exact Or.inr ⟨hwl, hpush i hi hqi⟩
    · rw [if_neg hlr]
      rcases hres : result with _ | o
      · rw [hres] at hnone
        have h0 : ∀ i, i < file.length →
            ¬qualifies target_time .untl (lineAt file i) = true := by
          intro i hi hqi
          rcases hnone rfl i hi hqi with ⟨hwl, hwr⟩
          omega
        rw [(latestQ_none_iff target_time .untl file).mpr h0]
        rfl
      · rw [hres] at hsome
        rcases hsome o rfl with ⟨i0, hlen0, hq0, ho0, _, hwin0⟩
        have hmax : ∀ j, i0 < j → j < file.length →
            ¬qualifies target_time .untl (lineAt file j) = true := by
          intro j hj1 hj2 hqj
          rcases hwin0 j hj2 hqj with hle | ⟨hwl, hwr⟩
          · omega
          · omega
        rw [latestQ_intro target_time .untl file i0 hlen0 hq0 hmax]
        simp [ho0]

/-- A suffix map for a line that parses only at its start: timestamp
`t`, trimmed length `n`. -/
def leadOnly (t : Int) (n : Nat) : Nat → Option (Int × Nat) :=
  fun k => if k = 0 then some (t, n) else none

/-- A two-line file whose first line embeds a parseable suffix mid-line
(as a CRI message can, e.g. by ending in an RFC 3339 token + space or
an embedded JSON object with a `timestamp` field): line 0 has 100
bytes, leading timestamp 0, and a suffix at byte 74 that parses with
timestamp 9 and trimmed length 25; line 1 has 50 bytes and leading
timestamp 10. -/
def cfileC4 : List FLine :=
  [⟨100, fun k => if k = 0 then some (0, 99)
      else if k = 74 then some (9, 25) else none⟩,
   ⟨50, leadOnly 10 49⟩]

/-- C4 counterexample: on `cfileC4` — nonempty lines, leading
timestamps 0 then 10, non-decreasing, so the claim's hypotheses hold —
the earliest line with timestamp `≥ 5` is line 1 at byte offset 100
with line length 49, but the binary search probes byte 74, the
mid-line read parses (the embedded suffix), `9 ≥ 5` accepts it, and the
search answers `some ⟨74, 25⟩`: a mid-line byte offset equal to no
line start, with a bogus length.  The claimed earliest-qualifying-line
law fails. -/
theorem find_nearest_offset_midline_counterexample :
    (∀ l ∈ cfileC4, 0 < l.blen) ∧
    (∀ i j, i ≤ j → j < cfileC4.length → ∀ ti tj,
      (lineAt cfileC4 i).ts = some ti → (lineAt cfileC4 j).ts = some tj →
      ti ≤ tj) ∧
    find_nearest_offset_since cfileC4 5 0 (totalLen cfileC4) =
      some ⟨74, 25⟩ ∧
    (earliestQ 5 .since cfileC4).map (idxOffset cfileC4) =
      some ⟨100, 49⟩ ∧
    (∀ i, i < cfileC4.length → lineStart cfileC4 i ≠ 74) := by
  refine ⟨by decide, ?_, by decide, by decide, by decide⟩
  intro i j hij hj ti tj hti htj
  simp only [cfileC4, List.length_cons, List.length_nil] at hj
  interval_cases j <;> interval_cases i <;>
    simp [cfileC4, lineAt, FLine.ts, leadOnly] at hti htj <;> omega

/-- A concrete four-line file, each line parseable only at its start:
lengths 10/5/7/8, trimmed lengths 9/4/6/7, leading timestamps 1,
unparseable, 2, 2 (two duplicates of 2). -/
def wfileC4 : List FLine :=
  [⟨10, leadOnly 1 9⟩, ⟨5, fun _ => none⟩, ⟨7, leadOnly 2 6⟩,
   ⟨8, leadOnly 2 7⟩]

/-- C4 (amended): searching the full range `[0, totalLen file)` of a
file whose lines are nonempty, whose parseable lines carry
non-decreasing leading timestamps, AND none of whose proper mid-line
suffixes parses (`hclean` — the guarantee the original claim lacks:
`scan_timestamp` feeds the partial line read after a mid-line seek to
`parse_timestamp`, and when a message embeds a parseable timestamp
token the search can adopt a mid-line offset, see the counterexample),
`find_nearest_offset_since` returns the byte offset (`lineStart`) and
line length (`tlen`) of the earliest line whose timestamp is `≥ T` —
`none` when no line qualifies — and `find_nearest_offset_until`
returns those of the latest line whose timestamp is `≤ T` — `none`
when none qualifies. In particular, when several lines carry exactly
timestamp `T`, `since` picks the earliest occurrence and `until` the
latest, because `earliestQ`/`latestQ` select the least/greatest
qualifying index. -/
theorem find_nearest_offset_spec (file : List FLine) (target_time : Int)
    (hpos : ∀ l ∈ file, 0 < l.blen)
    (hclean : ∀ i, i < file.length → ∀ k, k < (lineAt file i).blen →
      0 < k → (lineAt file i).suf k = none)
    (hmono : ∀ i j, i ≤ j → j < file.length → ∀ ti tj,
      (lineAt file i).ts = some ti → (lineAt file j).ts = some tj →
      ti ≤ tj) :
    find_nearest_offset_since file target_time 0 (totalLen file) =
      (earliestQ target_time .since file).map (idxOffset file) ∧
    find_nearest_offset_until file target_time 0 (totalLen file) =
      (latestQ target_time .untl file).map (idxOffset file) := by
  by_cases h0 : totalLen file = 0
  · have hnil : file = [] := by
      cases file with
      | nil => rfl
      | cons l rest =>
        have h1 : 0 < l.blen := hpos l (List.mem_cons_self _ _)
        have ht : totalLen (l :: rest) = l.blen + totalLen rest := rfl
        omega
    subst hnil
    constructor <;> rfl
  · constructor
    · rw [find_nearest_offset_since, find_nearest_offset, if_neg h0]
      refine findLoop_since_spec file target_time hpos hclean hmono _ _ _ none
        (by omega) (by omega) ?_ ?_
      · intro _ i hi hqi
        have h1 := lineStart_lt_totalLen file hpos i hi
        exact ⟨by omega, by omega⟩
      · intro o hc
        exact absurd hc (by simp)
    · rw [find_nearest_offset_until, find_nearest_offset, if_neg h0]
      refine findLoop_untl_spec file target_time hpos hclean hmono _ _ _ none
        (by omega) (by omega) ?_ ?_
      · intro _ i hi hqi
        have h1 := lineStart_lt_totalLen file hpos i hi
        exact ⟨by omega, by omega⟩
      · intro o hc
        exact absurd hc (by simp)

/-- Witness for the amended C4 on the concrete duplicate-timestamp
file (every line parseable only at its start). -/
theorem find_nearest_offset_spec_witness :
    find_nearest_offset_since wfileC4 2 0 (totalLen wfileC4) =
      (earliestQ 2 .since wfileC4).map (idxOffset wfileC4) ∧
    find_nearest_offset_until wfileC4 2 0 (totalLen wfileC4) =
      (latestQ 2 .untl wfileC4).map (idxOffset wfileC4) :=
  find_nearest_offset_spec wfileC4 2 (by decide) (by decide)
    (by
      intro i j hij hj ti tj hti htj
      simp only [wfileC4, List.length_cons, List.length_nil] at hj
      interval_cases j <;> interval_cases i <;>
        simp [wfileC4, lineAt, FLine.ts, leadOnly] at hti htj <;> omega)

end Kubetail
